import Mathlib

/-!
Verification of the `srec` crate (Motorola S-record codec) against its
natural-language specification.

Shallow embedding conventions:
* Rust `u8`/`u16`/`u32` values are modelled as `Nat`; the width constraints
  the Rust types enforce appear as explicit hypotheses (`< 2 ^ 16`, ...).
  Arithmetic that cannot overflow under those hypotheses is plain `Nat`
  arithmetic; where Rust truncates (`as u8`) an explicit `% 256` appears.
* Rust `&str` / `String` values are modelled as their UTF-8 byte sequences
  (`List Nat`), which is exactly Rust's internal representation; `String`
  equality coincides with byte-sequence equality because UTF-8 encoding is
  injective.
* A Rust panic (slice index out of range, `split_at` off a char boundary,
  `expect` on invalid UTF-8, the overlap `panic!` in `Image::add_data`,
  `try_into().unwrap()` failures) is modelled as `Option.none`; recoverable
  errors are `Except Error`.
-/

/-- Byte values of the reader `Error` enum (src/src/reader.rs lines 13-23). -/
inductive Error where
  | notEnoughData
  | unexpectedCharacter
  | byteCountZero
  | checksumMismatch
deriving DecidableEq

/-- `checksum_of` (src/src/lib.rs lines 68-70): wrapping `u8` sum of all bytes
followed by bitwise NOT.  The fold wraps at every addition exactly as the
`Wrapping<u8>` sum does, and `!x = 255 - x` for `x < 256`. -/
def checksum_of (data : List Nat) : Nat :=
  255 - data.foldl (fun acc b => (acc + b) % 256) 0

set_option maxRecDepth 4096

/-!
## Record model (src/src/record.rs)

The fixed-width wrapper types `Address16`, `Address24`, `Address32`,
`Count16`, `Count24` are flattened into the `Nat` payloads of the `Record`
constructors; the `u16`/`u32` bounds that the Rust types impose appear as
hypotheses of the theorems below.  The `S0` header `String` is modelled as
its UTF-8 byte sequence.
-/

/-- `Record` (src/src/record.rs lines 121-141). -/
inductive Record where
  | s0 (text : List Nat)
  | s1 (address : Nat) (data : List Nat)
  | s2 (address : Nat) (data : List Nat)
  | s3 (address : Nat) (data : List Nat)
  | s5 (count : Nat)
  | s6 (count : Nat)
  | s7 (address : Nat)
  | s8 (address : Nat)
  | s9 (address : Nat)
deriving DecidableEq

/-- `Address16::to_be_bytes` (src/src/record.rs lines 11-15): the two
big-endian bytes of a `u16`. -/
def to_be_bytes16 (v : Nat) : List Nat :=
  [v / 256 % 256, v % 256]

/-- `Address32::to_be_bytes` (src/src/record.rs lines 56-60): the four
big-endian bytes of a `u32`. -/
def to_be_bytes32 (v : Nat) : List Nat :=
  [v / 16777216 % 256, v / 65536 % 256, v / 256 % 256, v % 256]

/-- `Address24::to_be_bytes` (src/src/record.rs lines 34-38):
`u32::to_be_bytes` with the leading byte dropped, so a value above
`0xFFFFFF` is silently truncated. -/
def to_be_bytes24 (v : Nat) : List Nat :=
  [v / 65536 % 256, v / 256 % 256, v % 256]

/-!
## Writer (src/src/writer.rs)
-/

/-- One uppercase hex digit of `format!("{:02X}", _)` for a nibble. -/
def hexDigit (n : Nat) : Nat :=
  if n < 10 then 48 + n else 55 + n

/-- `format!("{:02X}", b)` for a byte `b < 256`: two uppercase hex-digit
characters (as ASCII byte values). -/
def hexByte (b : Nat) : List Nat :=
  [hexDigit (b / 16), hexDigit (b % 16)]

/-- The `bytes_str` hex rendering in `make_record`
(src/src/writer.rs lines 13-17). -/
def hexString (bs : List Nat) : List Nat :=
  bs.flatMap hexByte

/-- `make_record` (src/src/writer.rs lines 5-20).  `bytes` is
`[count byte] ++ address ++ data` where the count byte is
`bytes.len() as u8`, i.e. `(1 + |address| + |data|) % 256`; the output is
`"S"`, the decimal type digit (the source asserts `t < 10`; every call site
passes a literal 0-9), the hex rendering of `bytes`, and the hex checksum
over `bytes`. -/
def make_record (t : Nat) (address : List Nat) (data : List Nat) : List Nat :=
  let bytes := ((1 + address.length + data.length) % 256) :: (address ++ data)
  [83, 48 + t] ++ hexString bytes ++ hexByte (checksum_of bytes)

/-- `Record::encode` (src/src/writer.rs lines 22-36).  `S0` uses the bytes of
its text with a fixed `Address16(0x0000)`; `S5`/`S6` encode their count
through the matching address width; start-address records carry no data. -/
def Record.encode : Record → List Nat
  | .s0 text => make_record 0 (to_be_bytes16 0) text
  | .s1 address data => make_record 1 (to_be_bytes16 address) data
  | .s2 address data => make_record 2 (to_be_bytes24 address) data
  | .s3 address data => make_record 3 (to_be_bytes32 address) data
  | .s5 count => make_record 5 (to_be_bytes16 count) []
  | .s6 count => make_record 6 (to_be_bytes24 count) []
  | .s7 address => make_record 7 (to_be_bytes32 address) []
  | .s8 address => make_record 8 (to_be_bytes24 address) []
  | .s9 address => make_record 9 (to_be_bytes16 address) []

/-- `generate_srec_file` (src/src/writer.rs lines 66-76): encode each record
and append a newline (`\n` = byte 10) after every one, including the last. -/
def generate_srec_file (records : List Record) : List Nat :=
  records.flatMap (fun r => r.encode ++ [10])

/-!
## C5: the encoding shape, stated from the spec's words

`spec_encode_record` is written from the specification sentence: `S`, the
decimal type digit, a 2-hex-digit byte count equal to
`1 + address-width-in-bytes + payload length`, the hex encoding of the
big-endian address bytes followed by the payload bytes, and a 2-hex-digit
checksum (over count byte + address bytes + payload bytes, per spec 4.1).
It is compared against `Record.encode`, which was translated from the code.
-/

/-- The decimal type digit of each record variant (spec record table). -/
def spec_type_digit : Record → Nat
  | .s0 _ => 0
  | .s1 _ _ => 1
  | .s2 _ _ => 2
  | .s3 _ _ => 3
  | .s5 _ => 5
  | .s6 _ => 6
  | .s7 _ => 7
  | .s8 _ => 8
  | .s9 _ => 9

/-- The big-endian address-field bytes of each variant (spec: types 1/9 use
2-byte addresses, 2/8 use 3, 3/7 use 4, S5/S6 a count field of width 2/3;
S0 carries the fixed 2-byte address 0x0000). -/
def spec_address_bytes : Record → List Nat
  | .s0 _ => to_be_bytes16 0
  | .s1 address _ => to_be_bytes16 address
  | .s2 address _ => to_be_bytes24 address
  | .s3 address _ => to_be_bytes32 address
  | .s5 count => to_be_bytes16 count
  | .s6 count => to_be_bytes24 count
  | .s7 address => to_be_bytes32 address
  | .s8 address => to_be_bytes24 address
  | .s9 address => to_be_bytes16 address

/-- The payload bytes of each variant (S0: header text bytes; S1-S3: data;
others: none). -/
def spec_payload : Record → List Nat
  | .s0 text => text
  | .s1 _ data => data
  | .s2 _ data => data
  | .s3 _ data => data
  | _ => []

/-- Spec: byte count = 1 (for itself) + address width in bytes + payload
length. -/
def spec_byte_count (r : Record) : Nat :=
  1 + (spec_address_bytes r).length + (spec_payload r).length

/-- The record encoding as the spec describes it. -/
def spec_encode_record (r : Record) : List Nat :=
  [83, 48 + spec_type_digit r]
    ++ hexByte (spec_byte_count r)
    ++ hexString (spec_address_bytes r ++ spec_payload r)
    ++ hexByte (checksum_of (spec_byte_count r :: (spec_address_bytes r ++ spec_payload r)))

/-!
## Reader (src/src/reader.rs)

Input lines are the UTF-8 bytes of the Rust `&str`.  `str::split_at` works
on byte indices and panics when the index is not a character boundary;
that panic is modelled as `none`.
-/

/-- `RawRecord` (src/src/reader.rs lines 7-10). -/
structure RawRecord where
  t : Nat
  bytes : List Nat
deriving DecidableEq

/-- `str::is_char_boundary n`: true at 0 and at the length; otherwise the
byte at index `n` must not be a UTF-8 continuation byte
(`(b as i8) >= -0x40`, i.e. `b < 0x80 || b >= 0xC0`). -/
def isCharBoundary (s : List Nat) (n : Nat) : Bool :=
  if n = 0 then true
  else if n = s.length then true
  else
    match s[n]? with
    | some b => b < 128 || 192 ≤ b
    | none => false

/-- `str::split_at n` — `none` models the panic when `n` is not a char
boundary (which also covers `n > len`). -/
def split_at (n : Nat) (s : List Nat) : Option (List Nat × List Nat) :=
  if isCharBoundary s n then some (s.take n, s.drop n) else none

/-- `char::to_digit(16)` on an ASCII byte: `0-9`, `a-f`, `A-F`. -/
def hexVal (b : Nat) : Option Nat :=
  if 48 ≤ b ∧ b ≤ 57 then some (b - 48)
  else if 97 ≤ b ∧ b ≤ 102 then some (b - 87)
  else if 65 ≤ b ∧ b ≤ 70 then some (b - 55)
  else none

/-- `u8::from_str_radix(s, 16)` / `usize::from_str_radix(s, 16)` restricted
to the 2-character strings the reader passes.  Per the Rust implementation an
optional leading `+` is accepted before the digits (a `-` or an empty digit
string is an error for an unsigned type), and two hex digits never
overflow. -/
def from_str_radix_hex2 (s : List Nat) : Option Nat :=
  match s with
  | [b0, b1] =>
    if b0 = 43 then hexVal b1
    else
      match hexVal b0, hexVal b1 with
      | some h, some l => some (16 * h + l)
      | _, _ => none
  | _ => none

/-- `"<one char>".parse::<u8>()` for the single-byte strings produced by
`split_at 1`: exactly one decimal digit (a lone sign or any other character
is an error). -/
def parse_u8_decimal (s : List Nat) : Option Nat :=
  match s with
  | [b] => if 48 ≤ b ∧ b ≤ 57 then some (b - 48) else none
  | _ => none

/-- The byte-reading loop of `raw_record_from_str`
(src/src/reader.rs lines 66-78): read `n` pairs of hex characters; a
shortfall is `NotEnoughData`, a failed `from_str_radix` is
`UnexpectedCharacter`, a split off a char boundary panics (`none`).
Returns the bytes together with the unconsumed remainder of the line. -/
def read_bytes (n : Nat) (s : List Nat) : Option (Except Error (List Nat × List Nat)) :=
  match n with
  | 0 => some (.ok ([], s))
  | n + 1 =>
    if s.length < 2 then some (.error .notEnoughData)
    else
      match split_at 2 s with
      | none => none
      | some (byte_str, s2) =>
        match from_str_radix_hex2 byte_str with
        | none => some (.error .unexpectedCharacter)
        | some b =>
          match read_bytes n s2 with
          | none => none
          | some (.error e) => some (.error e)
          | some (.ok (bs, rest)) => some (.ok (b :: bs, rest))

/-- `raw_record_from_str` (src/src/reader.rs lines 28-93). -/
def raw_record_from_str (s : List Nat) : Option (Except Error RawRecord) :=
  if s.length < 1 then some (.error .notEnoughData)
  else
    match split_at 1 s with
    | none => none
    | some (first_char, s1) =>
      if first_char ≠ [83] then some (.error .unexpectedCharacter)
      else if s1.length < 1 then some (.error .notEnoughData)
      else
        match split_at 1 s1 with
        | none => none
        | some (type_str, s2) =>
          match parse_u8_decimal type_str with
          | none => some (.error .unexpectedCharacter)
          | some t =>
            if s2.length < 2 then some (.error .notEnoughData)
            else
              match split_at 2 s2 with
              | none => none
              | some (byte_count_str, s3) =>
                match from_str_radix_hex2 byte_count_str with
                | none => some (.error .unexpectedCharacter)
                | some byte_count =>
                  if byte_count = 0 then some (.error .byteCountZero)
                  else
                    match read_bytes byte_count s3 with
                    | none => none
                    | some (.error e) => some (.error e)
                    | some (.ok (bytes, _)) =>
                      match bytes.getLast? with
                      | none => none
                      | some checksum =>
                        let bytes := bytes.dropLast
                        let checksum_bytes := byte_count % 256 :: bytes
                        if checksum = checksum_of checksum_bytes
                        then some (.ok ⟨t, bytes⟩)
                        else some (.error .checksumMismatch)

/-- Whether a byte is a UTF-8 continuation byte (`0x80..=0xBF`). -/
def utf8Cont (b : Nat) : Bool :=
  128 ≤ b && b ≤ 191

/-- Validity of a byte sequence as UTF-8, mirroring `str::from_utf8`
(strict: overlong encodings, surrogates and values above `0x10FFFF` are
rejected, per the standard leading-byte/continuation table). -/
def utf8Valid : List Nat → Bool
  | [] => true
  | b :: rest =>
    if b ≤ 127 then utf8Valid rest
    else if 194 ≤ b && b ≤ 223 then
      match rest with
      | b1 :: r => utf8Cont b1 && utf8Valid r
      | [] => false
    else if b = 224 then
      match rest with
      | b1 :: b2 :: r => (160 ≤ b1 && b1 ≤ 191) && utf8Cont b2 && utf8Valid r
      | _ => false
    else if 225 ≤ b && b ≤ 236 then
      match rest with
      | b1 :: b2 :: r => utf8Cont b1 && utf8Cont b2 && utf8Valid r
      | _ => false
    else if b = 237 then
      match rest with
      | b1 :: b2 :: r => (128 ≤ b1 && b1 ≤ 159) && utf8Cont b2 && utf8Valid r
      | _ => false
    else if 238 ≤ b && b ≤ 239 then
      match rest with
      | b1 :: b2 :: r => utf8Cont b1 && utf8Cont b2 && utf8Valid r
      | _ => false
    else if b = 240 then
      match rest with
      | b1 :: b2 :: b3 :: r => (144 ≤ b1 && b1 ≤ 191) && utf8Cont b2 && utf8Cont b3 && utf8Valid r
      | _ => false
    else if 241 ≤ b && b ≤ 243 then
      match rest with
      | b1 :: b2 :: b3 :: r => utf8Cont b1 && utf8Cont b2 && utf8Cont b3 && utf8Valid r
      | _ => false
    else if b = 244 then
      match rest with
      | b1 :: b2 :: b3 :: r => (128 ≤ b1 && b1 ≤ 143) && utf8Cont b2 && utf8Cont b3 && utf8Valid r
      | _ => false
    else false

/-- `trim_end_matches('\0')` on a string, at the byte level: in valid UTF-8
a 0x00 byte occurs only as the one-byte NUL character, so stripping every
trailing NUL character strips exactly the trailing zero bytes. -/
def dropTrailingZeros (l : List Nat) : List Nat :=
  (l.reverse.dropWhile (· = 0)).reverse

/-- `u16::from_be_bytes` / `u32::from_be_bytes` on the exact-width slices the
dispatch produces (for S2/S6/S8 the source first left-pads the 3 address
bytes with a zero byte, which does not change this fold). -/
def from_be_bytes (bs : List Nat) : Nat :=
  bs.foldl (fun acc b => 256 * acc + b) 0

/-- The per-tag dispatch of `Record::from_str` (src/src/reader.rs lines
101-211), applied to a successfully parsed `RawRecord`.  The S0 arm models
`&rr.bytes[2..]` (panic - `none` - when fewer than 2 bytes) followed by
`str::from_utf8(..).expect(..)` (panic on invalid UTF-8) and
`trim_end_matches('\0')`.  The `match rr.t` of the source is an equality
chain here. -/
def decode_raw_record (rr : RawRecord) : Option (Except Error Record) :=
  if rr.t = 0 then
    if rr.bytes.length < 2 then none
    else if utf8Valid (rr.bytes.drop 2) then
      some (.ok (.s0 (dropTrailingZeros (rr.bytes.drop 2))))
    else none
  else if rr.t = 1 then
    if rr.bytes.length < 2 then some (.error .notEnoughData)
    else some (.ok (.s1 (from_be_bytes (rr.bytes.take 2)) (rr.bytes.drop 2)))
  else if rr.t = 2 then
    if rr.bytes.length < 3 then some (.error .notEnoughData)
    else some (.ok (.s2 (from_be_bytes (rr.bytes.take 3)) (rr.bytes.drop 3)))
  else if rr.t = 3 then
    if rr.bytes.length < 4 then some (.error .notEnoughData)
    else some (.ok (.s3 (from_be_bytes (rr.bytes.take 4)) (rr.bytes.drop 4)))
  else if rr.t = 5 then
    if rr.bytes.length ≠ 2 then some (.error .notEnoughData)
    else some (.ok (.s5 (from_be_bytes rr.bytes)))
  else if rr.t = 6 then
    if rr.bytes.length ≠ 3 then some (.error .notEnoughData)
    else some (.ok (.s6 (from_be_bytes rr.bytes)))
  else if rr.t = 7 then
    if rr.bytes.length ≠ 4 then some (.error .notEnoughData)
    else some (.ok (.s7 (from_be_bytes rr.bytes)))
  else if rr.t = 8 then
    if rr.bytes.length ≠ 3 then some (.error .notEnoughData)
    else some (.ok (.s8 (from_be_bytes rr.bytes)))
  else if rr.t = 9 then
    if rr.bytes.length ≠ 2 then some (.error .notEnoughData)
    else some (.ok (.s9 (from_be_bytes rr.bytes)))
  else some (.error .unexpectedCharacter)

/-- `Record::from_str` (src/src/reader.rs lines 95-216). -/
def Record.from_str (s : List Nat) : Option (Except Error Record) :=
  match raw_record_from_str s with
  | none => none
  | some (.error e) => some (.error e)
  | some (.ok rr) => decode_raw_record rr

/-- Split on `\n` (byte 10), keeping a final empty piece. -/
def split_newlines : List Nat → List (List Nat)
  | [] => [[]]
  | b :: rest =>
    if b = 10 then [] :: split_newlines rest
    else
      match split_newlines rest with
      | [] => [[b]]
      | l :: ls => (b :: l) :: ls

/-- Drop the final piece when it is empty (`str::lines` does not yield a
trailing empty line). -/
def dropFinalEmpty (ls : List (List Nat)) : List (List Nat) :=
  if ls.getLast? = some [] then ls.dropLast else ls

/-- Strip one trailing `\r` (byte 13) from a line, as `str::lines` does. -/
def stripTrailingCR (l : List Nat) : List Nat :=
  if l.getLast? = some 13 then l.dropLast else l

/-- `str::lines`: split on `\n`, no trailing empty line, strip a trailing
`\r` from each line. -/
def lines (s : List Nat) : List (List Nat) :=
  (dropFinalEmpty (split_newlines s)).map stripTrailingCR

/-- ASCII whitespace bytes recognised by `char::is_whitespace`.
`str::trim` strips Unicode whitespace; the only lines the theorems below
trim through contain no multi-byte characters at all, where Unicode and
ASCII whitespace trimming coincide, so the multi-byte whitespace characters
are not modelled. -/
def isWhitespaceByte (b : Nat) : Bool :=
  b = 9 || b = 10 || b = 11 || b = 12 || b = 13 || b = 32

/-- `str::trim` (restricted as described at `isWhitespaceByte`). -/
def trimBytes (l : List Nat) : List Nat :=
  ((l.dropWhile isWhitespaceByte).reverse.dropWhile isWhitespaceByte).reverse

/-- `read_records` (src/src/reader.rs lines 235-240): one parse result per
non-blank trimmed line.  An element is `none` when parsing that line
panics. -/
def read_records (s : List Nat) : List (Option (Except Error Record)) :=
  (((lines s).map trimBytes).filter (· ≠ [])).map Record.from_str

/-- Well-formedness of a record for the round-trip: address and count values
fit their declared widths (as the Rust wrapper types require for 16-bit
values and the spec requires for 24-bit ones), data bytes are byte-sized
(as `u8` requires), the S0 text is valid UTF-8 (as `String` requires) with
no trailing NUL byte, and the payload leaves the one-byte byte count within
255 (at most 252/251/250 bytes for S1/S2/S3, 252 for S0). -/
def wf_record : Record → Bool
  | .s0 text => utf8Valid text && decide (text.length ≤ 252)
      && decide (text.getLast? ≠ some 0) && text.all (fun b => decide (b < 256))
  | .s1 address data => decide (address < 65536) && decide (data.length ≤ 252)
      && data.all (fun b => decide (b < 256))
  | .s2 address data => decide (address < 16777216) && decide (data.length ≤ 251)
      && data.all (fun b => decide (b < 256))
  | .s3 address data => decide (address < 4294967296) && decide (data.length ≤ 250)
      && data.all (fun b => decide (b < 256))
  | .s5 count => decide (count < 65536)
  | .s6 count => decide (count < 16777216)
  | .s7 address => decide (address < 4294967296)
  | .s8 address => decide (address < 16777216)
  | .s9 address => decide (address < 65536)

deriving instance DecidableEq for Except

/-- The flattened character pairs of the byte fields preceding a bad one. -/
def pairBytes (ps : List (Nat × Nat)) : List Nat :=
  ps.flatMap (fun p => [p.1, p.2])

/-!
## Image (src/src/image.rs)

`Block` and `Image` hold `u32` addresses and `u8` data, modelled as `Nat`
per the conventions above.  `add_data`'s overlap `panic!` is modelled as
`none`.
-/

/-- `Block` (src/src/image.rs lines 2-5). -/
structure Block where
  address : Nat
  data : List Nat
deriving DecidableEq

/-- `Image` (src/src/image.rs lines 8-10). -/
structure Image where
  blocks : List Block
deriving DecidableEq

/-- `Image::new` (src/src/image.rs lines 13-15). -/
def Image.new : Image := ⟨[]⟩

/-- One past a block's last address: `block.address + block.data.len()`. -/
def blockEnd (b : Block) : Nat := b.address + b.data.length

/-- The overlap scan of `add_data` (src/src/image.rs lines 20-32) for one
existing block: iterate every address of the block's range and test
membership in the new range `address..(address + data.len())`
(`Range::contains`: inclusive start, exclusive end). -/
def rangeOverlapsNew (address dataLen : Nat) (b : Block) : Bool :=
  (List.range b.data.length).any (fun i =>
    decide (address ≤ b.address + i) && decide (b.address + i < address + dataLen))

/-- One step of the sort underlying `sort_unstable_by` on addresses: insert
past every element not strictly greater. -/
def insertBlock (x : Block) : List Block → List Block
  | [] => [x]
  | y :: l => if x.address < y.address then x :: y :: l else y :: insertBlock x l

/-- `sort_unstable_by(|a, b| a.address.cmp(&b.address))`
(src/src/image.rs lines 38-39).  A comparison sort is unique up to the
order of equal keys; on the short runs involved Rust's `sort_unstable`
performs an insertion sort that moves an element left only while strictly
smaller, i.e. this stable left fold.  Equal addresses can only involve
zero-length blocks (non-empty blocks are disjoint). -/
def sortBlocks (l : List Block) : List Block :=
  l.foldl (fun acc x => insertBlock x acc) []

/-- The merge loop of `add_data` (src/src/image.rs lines 41-67): repeatedly
find the first adjacent pair with `first.address + first.data.len() ==
last.address` and append `last`'s bytes onto `first`, removing `last`.
Merging never changes a block's start address, so whether an adjacent pair
is contiguous is fixed throughout the loop and each maximal run of
contiguous blocks collapses into its first block, with the data
concatenated left to right; this right fold computes that normal form. -/
def mergeAll : List Block → List Block
  | [] => []
  | a :: rest =>
    match mergeAll rest with
    | [] => [a]
    | b :: rest2 =>
      if blockEnd a = b.address then ⟨a.address, a.data ++ b.data⟩ :: rest2
      else a :: b :: rest2

/-- `Image::add_data` (src/src/image.rs lines 17-68): panic (`none`) when
any address of an existing block lies in the new range, otherwise push the
new block, sort by address and run the merge loop. -/
def Image.add_data (img : Image) (address : Nat) (data : List Nat) : Option Image :=
  if img.blocks.any (rangeOverlapsNew address data.length) then none
  else some ⟨mergeAll (sortBlocks (img.blocks ++ [⟨address, data⟩]))⟩

/-- Membership of an address in a block's range
(`block.address..(block.address + block.data.len())`). -/
def inBlock (b : Block) (n : Nat) : Prop := b.address ≤ n ∧ n < blockEnd b

/-- Two blocks' address ranges do not intersect (interval formulation; for
half-open intervals emptiness of the intersection is
`¬ (max start₁ start₂ < min end₁ end₂)`). -/
def blocksDisjoint (x y : Block) : Prop :=
  ¬ (max x.address y.address < min (blockEnd x) (blockEnd y))

/-- The `Image` invariant, amended: blocks sorted by address
(non-decreasing), no block contiguous with its immediate successor, and
pairwise disjoint ranges. -/
def validBlocks (l : List Block) : Prop :=
  List.Pairwise (fun x y => x.address ≤ y.address) l ∧
  List.Chain' (fun x y => blockEnd x ≠ y.address) l ∧
  List.Pairwise blocksDisjoint l

instance (x y : Block) : Decidable (blocksDisjoint x y) :=
  inferInstanceAs (Decidable (¬ _))

instance (l : List Block) : Decidable (validBlocks l) :=
  inferInstanceAs (Decidable (_ ∧ _ ∧ _))

/-!
## Record synthesis from an image (src/src/generate.rs)
-/

/-- `AddressFormat` (src/src/generate.rs lines 40-45). -/
inductive AddressFormat where
  | smallestRequired
  | address16
  | address24
  | address32

/-- `slice::chunks(32)`: split into runs of 32 with a shorter final run; no
chunks for empty data.  The fuel argument only makes the recursion
structural; it is always called with fuel at least the list length, and each
step consumes at least one element. -/
def chunksFuel : Nat → List Nat → List (List Nat)
  | _, [] => []
  | 0, _ :: _ => []
  | fuel + 1, x :: xs => (x :: xs.take 31) :: chunksFuel fuel (xs.drop 31)

/-- `block.data.chunks(32)` (src/src/generate.rs lines 56-57). -/
def chunks32 (l : List Nat) : List (List Nat) :=
  chunksFuel l.length l

/-- The per-block chunk enumeration of `image_records` (src/src/generate.rs
lines 54-63): chunk `i` becomes a block at `block.address + i * 32`. -/
def block_chunks (b : Block) : List Block :=
  (chunks32 b.data).enum.map (fun p => ⟨b.address + p.1 * 32, p.2⟩)

/-- The flattened chunk blocks of the whole image. -/
def image_chunks (i : Image) : List Block :=
  i.blocks.flatMap block_chunks

/-- `Iterator::max` over the chunk addresses (src/src/generate.rs lines
51-65). -/
def list_max : List Nat → Option Nat
  | [] => none
  | x :: l =>
    match list_max l with
    | none => some x
    | some m => some (max x m)

/-- The per-chunk record construction (src/src/generate.rs lines 79-113):
`Address16` forces S1 (`try_into().unwrap()` panics above `0xFFFF`),
`Address24` forces S2 (explicit `panic!` above `0xFFFFFF`), `Address32`
forces S3, and `SmallestRequired` matches the unwrapped maximum address
against `0...0xFFFF` / `0x10000...0xFFFFFF` / the rest (the `unwrap` of a
`None` maximum can never be reached, because the closure only runs when at
least one chunk exists). -/
def chunk_record (f : AddressFormat) (max_address : Option Nat) (b : Block) :
    Option Record :=
  match f with
  | .address16 => if b.address < 65536 then some (.s1 b.address b.data) else none
  | .address24 => if 16777215 < b.address then none else some (.s2 b.address b.data)
  | .address32 => some (.s3 b.address b.data)
  | .smallestRequired =>
    match max_address with
    | none => none
    | some m =>
      if m ≤ 65535 then
        if b.address < 65536 then some (.s1 b.address b.data) else none
      else if m ≤ 16777215 then some (.s2 b.address b.data)
      else some (.s3 b.address b.data)

/-- Collect the per-chunk records; a panic in any element aborts
(`none`). -/
def records_list (f : Block → Option Record) : List Block → Option (List Record)
  | [] => some []
  | b :: l =>
    match f b with
    | none => none
    | some r =>
      match records_list f l with
      | none => none
      | some rs => some (r :: rs)

/-- `image_records` (src/src/generate.rs lines 47-114), with the lazy
iterator collected into an `Option (List Record)`. -/
def image_records (i : Image) (f : AddressFormat) : Option (List Record) :=
  records_list
    (chunk_record f (list_max ((image_chunks i).map (·.address))))
    (image_chunks i)

/-- Modelled from the spec: the single global width `SmallestRequired`
chooses from the maximum chunk address — 16-bit records if it is at most
`0xFFFF`, 24-bit if at most `0xFFFFFF`, else 32-bit. -/
def smallest_record (m : Nat) (b : Block) : Record :=
  if m ≤ 65535 then .s1 b.address b.data
  else if m ≤ 16777215 then .s2 b.address b.data
  else .s3 b.address b.data

/-- The wrapping fold equals a single reduction of the plain sum. -/
theorem checksum_foldl_eq (data : List Nat) :
    data.foldl (fun acc b => (acc + b) % 256) 0 = data.sum % 256 := by
  suffices h : ∀ a, data.foldl (fun acc b => (acc + b) % 256) (a % 256) = (a + data.sum) % 256 by
    simpa using h 0
  induction data with
  | nil => intro a; simp
  | cons x xs ih =>
    intro a
    have h1 : (a % 256 + x) % 256 = (a + x) % 256 := by
      conv_rhs => rw [Nat.add_mod]
      simp [Nat.add_mod]
    simp only [List.foldl_cons, List.sum_cons, h1]
    rw [ih (a + x)]
    ring_nf

/-- For `x < 256`, `255 - x` is the 8-bit bitwise NOT, i.e. `x XOR 255`. -/
theorem sub_255_eq_xor (x : Nat) (h : x < 256) : 255 - x = Nat.xor x 255 := by
  have : ∀ i : Fin 256, 255 - i.val = Nat.xor i.val 255 := by decide
  exact this ⟨x, h⟩

/-- C3: `checksum_of bs` is the bitwise NOT (XOR with 0xFF) of the byte sum
reduced modulo 256, with no overflow failure; and the two concrete values from
the spec hold: `checksum_of [0x03,0x00,0x03] = 0xF9` and
`checksum_of [0x03,0x00,0x00] = 0xFC`. -/
theorem claim_C3_checksum :
    (∀ bs : List Nat, checksum_of bs = Nat.xor (bs.sum % 256) 255) ∧
    checksum_of [0x03, 0x00, 0x03] = 0xF9 ∧
    checksum_of [0x03, 0x00, 0x00] = 0xFC := by
  refine ⟨fun bs => ?_, by decide, by decide⟩
  rw [checksum_of, checksum_foldl_eq, sub_255_eq_xor _ (Nat.mod_lt _ (by norm_num))]

theorem hexString_cons (b : Nat) (l : List Nat) :
    hexString (b :: l) = hexByte b ++ hexString l := by
  simp [hexString]

/-- The code's encoder matches the spec's description whenever the byte count
fits in one byte (the spec's documented caller precondition). -/
theorem encode_eq_spec_encode (r : Record) (h : spec_byte_count r ≤ 255) :
    r.encode = spec_encode_record r := by
  cases r <;>
    simp_all [Record.encode, make_record, spec_encode_record, spec_byte_count,
      spec_address_bytes, spec_payload, spec_type_digit, hexString_cons,
      to_be_bytes16, to_be_bytes24, to_be_bytes32, Nat.mod_eq_of_lt,
      Nat.lt_succ_iff]

/-- C5 counterexample: for an S1 record with a 255-byte payload the rendered
byte-count field is not `1 + address-width + payload length` (= 258): the
code stores `258 as u8 = 2`, so the encoding differs from the spec's
description (whose "2-hex-digit byte count equal to 1 + width + length"
is rendered here by the same 2-digit hex formatter). -/
theorem claim_C5_counterexample :
    Record.encode (.s1 0 (List.replicate 255 0))
      ≠ spec_encode_record (.s1 0 (List.replicate 255 0)) := by
  decide

/-- C5 (amended): for every record whose byte count `1 + address-width +
payload length` is at most 255 — the spec's documented caller precondition —
the encoding is exactly as the claim describes, and `generate_srec_file`
is the concatenation of the newline-terminated encodings. -/
theorem claim_C5_encoding (records : List Record)
    (h : ∀ r ∈ records, spec_byte_count r ≤ 255) :
    generate_srec_file records
      = (records.map (fun r => spec_encode_record r ++ [10])).flatten := by
  induction records with
  | nil => rfl
  | cons r rs ih =>
    have hr : r.encode = spec_encode_record r :=
      encode_eq_spec_encode r (h r (List.mem_cons_self r rs))
    simp only [generate_srec_file, List.flatMap_cons, List.map_cons,
      List.flatten_cons, hr]
    rw [← generate_srec_file]
    rw [ih (fun x hx => h x (List.mem_cons_of_mem r hx))]

/-- C5 witness: the amended theorem applied to the concrete record list from
the spec's end-to-end example. -/
theorem claim_C5_witness :
    generate_srec_file [.s0 [72, 68, 82], .s1 0x1234 [0, 1, 2, 3], .s9 0x1234]
      = ([Record.s0 [72, 68, 82], .s1 0x1234 [0, 1, 2, 3], .s9 0x1234].map
          (fun r => spec_encode_record r ++ [10])).flatten :=
  claim_C5_encoding _ (by decide)

/-!
## Round-trip lemmas: parsing the writer's output
-/

theorem checksum_of_lt (l : List Nat) : checksum_of l < 256 := by
  unfold checksum_of; omega

theorem hexVal_hexDigit (n : Nat) (h : n < 16) : hexVal (hexDigit n) = some n := by
  unfold hexVal hexDigit
  split_ifs <;> (congr 1; omega)

theorem hexDigit_range (n : Nat) (h : n < 16) : 48 ≤ hexDigit n ∧ hexDigit n ≤ 70 := by
  unfold hexDigit; split_ifs <;> omega

theorem from_str_radix_hexByte (b : Nat) (h : b < 256) :
    from_str_radix_hex2 (hexByte b) = some b := by
  have h1 := hexVal_hexDigit (b / 16) (by omega)
  have h2 := hexVal_hexDigit (b % 16) (by omega)
  have h3 := hexDigit_range (b / 16) (by omega)
  have h4 : ¬ hexDigit (b / 16) = 43 := by omega
  simp only [hexByte, from_str_radix_hex2, h1, h2, if_neg h4]
  congr 1
  omega

theorem mem_hexByte_range (b y : Nat) (h : b < 256) (hy : y ∈ hexByte b) :
    48 ≤ y ∧ y ≤ 70 := by
  have h1 := hexDigit_range (b / 16) (by omega)
  have h2 := hexDigit_range (b % 16) (by omega)
  simp only [hexByte, List.mem_cons, List.mem_singleton] at hy
  rcases hy with rfl | rfl | h
  · exact h1
  · exact h2
  · cases h

theorem mem_hexString_range (l : List Nat) (y : Nat)
    (h : ∀ x ∈ l, x < 256) (hy : y ∈ hexString l) : 48 ≤ y ∧ y ≤ 70 := by
  simp only [hexString, List.mem_flatMap] at hy
  obtain ⟨x, hx, hyx⟩ := hy
  exact mem_hexByte_range x y (h x hx) hyx

theorem isCharBoundary_of (s : List Nat) (n : Nat) (h1 : n ≤ s.length)
    (h2 : ∀ b, s[n]? = some b → b < 128) : isCharBoundary s n = true := by
  unfold isCharBoundary
  split_ifs with e0 el
  · rfl
  · rfl
  · have hlt : n < s.length := lt_of_le_of_ne h1 el
    have : s[n]? = some s[n] := List.getElem?_eq_getElem hlt
    rw [this]
    have := h2 s[n] this
    simp
    omega

theorem split_at_some (n : Nat) (s : List Nat) (h1 : n ≤ s.length)
    (h2 : ∀ b, s[n]? = some b → b < 128) :
    split_at n s = some (s.take n, s.drop n) := by
  unfold split_at
  rw [isCharBoundary_of s n h1 h2]
  rfl

/-- Reading back `n` hex-encoded bytes recovers them; the first byte after
them (if any) must be ASCII so that the final 2-byte split stays on a char
boundary. -/
theorem read_bytes_hexString (bs rest : List Nat) (hb : ∀ b ∈ bs, b < 256)
    (hr : ∀ b ∈ rest.take 1, b < 128) :
    read_bytes bs.length (hexString bs ++ rest) = some (.ok (bs, rest)) := by
  induction bs with
  | nil => simp [read_bytes, hexString]
  | cons b bs ih =>
    have hb0 : b < 256 := hb b (List.mem_cons_self b bs)
    have hbs : ∀ x ∈ bs, x < 256 := fun x hx => hb x (List.mem_cons_of_mem b hx)
    have hsz : hexByte b = [hexDigit (b / 16), hexDigit (b % 16)] := rfl
    rw [hexString_cons, hsz]
    show read_bytes (bs.length + 1)
      (hexDigit (b / 16) :: hexDigit (b % 16) :: (hexString bs ++ rest)) = _
    unfold read_bytes
    have hlen : ¬ ((hexDigit (b / 16) :: hexDigit (b % 16) :: (hexString bs ++ rest)).length < 2) := by
      simp
    rw [if_neg hlen]
    have hsplit : split_at 2 (hexDigit (b / 16) :: hexDigit (b % 16) :: (hexString bs ++ rest))
        = some ([hexDigit (b / 16), hexDigit (b % 16)], hexString bs ++ rest) := by
      have := split_at_some 2
        (hexDigit (b / 16) :: hexDigit (b % 16) :: (hexString bs ++ rest))
        (by simp)
        (by
          intro x hx
          simp only [List.getElem?_cons_succ] at hx
          rcases bs with _ | ⟨c, cs⟩
          · rcases rest with _ | ⟨r0, rs⟩
            · simp [hexString] at hx
            · have hr0 : r0 < 128 := hr r0 (by simp)
              simp [hexString] at hx
              omega
          · have hc : c < 256 := hbs c (List.mem_cons_self c cs)
            have := hexDigit_range (c / 16) (by omega)
            rw [hexString_cons] at hx
            simp [hexByte] at hx
            omega)
      simpa using this
    have hradix : from_str_radix_hex2 [hexDigit (b / 16), hexDigit (b % 16)] = some b := by
      have := from_str_radix_hexByte b hb0
      simpa [hexByte] using this
    simp only [hsplit, hradix, ih hbs]

/-- Parsing the raw-record stage of a `make_record` output recovers the type
tag and the address + data bytes, provided the type digit is a digit, the
bytes are byte-sized, and the byte count fits in one byte. -/
theorem raw_record_from_str_make_record (t : Nat) (addr data : List Nat)
    (ht : t ≤ 9) (ha : ∀ b ∈ addr, b < 256) (hd : ∀ b ∈ data, b < 256)
    (hc : 1 + addr.length + data.length ≤ 255) :
    raw_record_from_str (make_record t addr data) = some (.ok ⟨t, addr ++ data⟩) := by
  have hcnt_eq : (1 + addr.length + data.length) % 256 = 1 + addr.length + data.length :=
    Nat.mod_eq_of_lt (by omega)
  set cnt := (1 + addr.length + data.length) % 256 with hcnt_def
  set bytesAll := cnt :: (addr ++ data) with hbytes_def
  set cks := checksum_of bytesAll with hcks_def
  have hcks_lt : cks < 256 := checksum_of_lt _
  have hcnt_lt : cnt < 256 := by omega
  have hmk : make_record t addr data
      = 83 :: (48 + t) :: (hexString bytesAll ++ hexByte cks) := by
    simp [make_record, hbytes_def, hcks_def, hcnt_def]
  have hT : hexString bytesAll ++ hexByte cks
      = hexDigit (cnt / 16) :: hexDigit (cnt % 16)
        :: (hexString (addr ++ data) ++ hexByte cks) := by
    rw [hbytes_def, hexString_cons]
    rfl
  rw [hmk, hT]
  have hhead : ∀ b, (hexString (addr ++ data) ++ hexByte cks).head? = some b → b < 128 := by
    intro b hb
    have hmem : b ∈ hexString (addr ++ data) ++ hexByte cks := List.mem_of_mem_head? hb
    rcases List.mem_append.mp hmem with h | h
    · have := mem_hexString_range (addr ++ data) b
        (by intro x hx; rcases List.mem_append.mp hx with h' | h'
            exacts [ha x h', hd x h']) h
      omega
    · have := mem_hexByte_range cks b hcks_lt h
      omega
  have hsplit1 : split_at 1
      (83 :: (48 + t) :: hexDigit (cnt / 16) :: hexDigit (cnt % 16)
        :: (hexString (addr ++ data) ++ hexByte cks))
      = some ([83], (48 + t) :: hexDigit (cnt / 16) :: hexDigit (cnt % 16)
        :: (hexString (addr ++ data) ++ hexByte cks)) := by
    rw [split_at_some] <;> simp
    omega
  have hsplit2 : split_at 1
      ((48 + t) :: hexDigit (cnt / 16) :: hexDigit (cnt % 16)
        :: (hexString (addr ++ data) ++ hexByte cks))
      = some ([48 + t], hexDigit (cnt / 16) :: hexDigit (cnt % 16)
        :: (hexString (addr ++ data) ++ hexByte cks)) := by
    have := hexDigit_range (cnt / 16) (by omega)
    rw [split_at_some] <;> simp
    omega
  have hsplit3 : split_at 2
      (hexDigit (cnt / 16) :: hexDigit (cnt % 16)
        :: (hexString (addr ++ data) ++ hexByte cks))
      = some ([hexDigit (cnt / 16), hexDigit (cnt % 16)],
        hexString (addr ++ data) ++ hexByte cks) := by
    rw [split_at_some]
    · simp
    · simp
    · intro b hb
      simp only [List.getElem?_cons_succ] at hb
      rw [← List.head?_eq_getElem?] at hb
      exact hhead b hb
  have hparse : parse_u8_decimal [48 + t] = some t := by
    have hcond : 48 ≤ 48 + t ∧ 48 + t ≤ 57 := by omega
    simp only [parse_u8_decimal, if_pos hcond]
    congr 1
    omega
  have hradix : from_str_radix_hex2 [hexDigit (cnt / 16), hexDigit (cnt % 16)] = some cnt := by
    have := from_str_radix_hexByte cnt hcnt_lt
    simpa [hexByte] using this
  have hflat : hexString (addr ++ data) ++ hexByte cks
      = hexString ((addr ++ data) ++ [cks]) ++ [] := by
    simp [hexString]
  have hread : read_bytes cnt (hexString (addr ++ data) ++ hexByte cks)
      = some (.ok ((addr ++ data) ++ [cks], [])) := by
    rw [hflat]
    have hlen : cnt = ((addr ++ data) ++ [cks]).length := by
      simp
      omega
    rw [hlen]
    exact read_bytes_hexString _ _
      (by intro b hb
          rcases List.mem_append.mp hb with h | h
          · rcases List.mem_append.mp h with h' | h'
            exacts [ha b h', hd b h']
          · simp only [List.mem_singleton] at h
            omega)
      (by simp)
  have hlast : ((addr ++ data) ++ [cks]).getLast? = some cks := List.getLast?_concat _
  have hdrop : ((addr ++ data) ++ [cks]).dropLast = addr ++ data := List.dropLast_concat
  have hmod : cnt % 256 = cnt := Nat.mod_eq_of_lt hcnt_lt
  have hcnt0 : ¬ cnt = 0 := by omega
  have hck : (cks = checksum_of (cnt % 256 :: (addr ++ data))) ↔ True :=
    iff_of_true (by rw [hmod, hcks_def, hbytes_def]) trivial
  have hL0 : ¬ ((83 : Nat) :: (48 + t) :: hexDigit (cnt / 16) :: hexDigit (cnt % 16)
      :: (hexString (addr ++ data) ++ hexByte cks)).length < 1 := by simp
  have hL1 : ¬ ((48 + t) :: hexDigit (cnt / 16) :: hexDigit (cnt % 16)
      :: (hexString (addr ++ data) ++ hexByte cks)).length < 1 := by simp
  have hL2 : ¬ (hexDigit (cnt / 16) :: hexDigit (cnt % 16)
      :: (hexString (addr ++ data) ++ hexByte cks)).length < 2 := by simp
  simp only [raw_record_from_str, hL0, hL1, hL2, hsplit1, hsplit2, hsplit3, hparse,
    hradix, hread, hlast, hdrop, hck, hcnt0, if_false, if_true, ite_false, ite_true,
    ne_eq, not_true_eq_false, not_false_eq_true, if_neg, if_pos, reduceCtorEq]

theorem from_be_to_be16 (a : Nat) (h : a < 65536) :
    from_be_bytes (to_be_bytes16 a) = a := by
  simp [from_be_bytes, to_be_bytes16]
  omega

theorem from_be_to_be24 (a : Nat) (h : a < 16777216) :
    from_be_bytes (to_be_bytes24 a) = a := by
  simp [from_be_bytes, to_be_bytes24]
  omega

theorem from_be_to_be32 (a : Nat) (h : a < 4294967296) :
    from_be_bytes (to_be_bytes32 a) = a := by
  simp [from_be_bytes, to_be_bytes32]
  omega

theorem mem_to_be16 (v b : Nat) (h : b ∈ to_be_bytes16 v) : b < 256 := by
  simp [to_be_bytes16] at h
  rcases h with rfl | rfl <;> omega

theorem mem_to_be24 (v b : Nat) (h : b ∈ to_be_bytes24 v) : b < 256 := by
  simp [to_be_bytes24] at h
  rcases h with rfl | rfl | rfl <;> omega

theorem mem_to_be32 (v b : Nat) (h : b ∈ to_be_bytes32 v) : b < 256 := by
  simp [to_be_bytes32] at h
  rcases h with rfl | rfl | rfl | rfl <;> omega

theorem dropTrailingZeros_eq (l : List Nat) (h : l.getLast? ≠ some 0) :
    dropTrailingZeros l = l := by
  unfold dropTrailingZeros
  rcases hrev : l.reverse with _ | ⟨x, xs⟩
  · simpa using congrArg List.reverse hrev
  · have hx : x ≠ 0 := by
      intro hx0
      apply h
      rw [← List.head?_reverse, hrev, hx0]
      rfl
    rw [List.dropWhile_cons, if_neg (by simpa using hx), ← hrev, List.reverse_reverse]

/-- Parsing the encoding of a well-formed record recovers the record. -/
theorem from_str_encode (r : Record) (h : wf_record r = true) :
    Record.from_str r.encode = some (.ok r) := by
  cases r with
  | s0 text =>
    simp only [wf_record, Bool.and_eq_true, List.all_eq_true, decide_eq_true_eq] at h
    obtain ⟨⟨⟨hv, hlen⟩, hlast⟩, hbytes⟩ := h
    rw [Record.encode, Record.from_str,
      raw_record_from_str_make_record 0 (to_be_bytes16 0) text (by omega)
        (fun b hb => mem_to_be16 0 b hb) hbytes (by simp [to_be_bytes16]; omega)]
    have h2 : to_be_bytes16 0 ++ text = 0 :: 0 :: text := by simp [to_be_bytes16]
    have hcond : ¬ ((0 : Nat) :: 0 :: text).length < 2 := by simp
    simp [decode_raw_record, h2, hcond, hv, dropTrailingZeros_eq text hlast]
  | s1 address data =>
    simp only [wf_record, Bool.and_eq_true, List.all_eq_true, decide_eq_true_eq] at h
    obtain ⟨⟨ha, hlen⟩, hbytes⟩ := h
    rw [Record.encode, Record.from_str,
      raw_record_from_str_make_record 1 (to_be_bytes16 address) data (by omega)
        (fun b hb => mem_to_be16 address b hb) hbytes (by simp [to_be_bytes16]; omega)]
    have h2 : to_be_bytes16 address ++ data
        = address / 256 % 256 :: address % 256 :: data := by simp [to_be_bytes16]
    have hcond : ¬ (address / 256 % 256 :: address % 256 :: data).length < 2 := by simp
    have hfb : from_be_bytes [address / 256 % 256, address % 256] = address := by
      simpa [to_be_bytes16] using from_be_to_be16 address ha
    simp [decode_raw_record, h2, hcond, hfb]
  | s2 address data =>
    simp only [wf_record, Bool.and_eq_true, List.all_eq_true, decide_eq_true_eq] at h
    obtain ⟨⟨ha, hlen⟩, hbytes⟩ := h
    rw [Record.encode, Record.from_str,
      raw_record_from_str_make_record 2 (to_be_bytes24 address) data (by omega)
        (fun b hb => mem_to_be24 address b hb) hbytes (by simp [to_be_bytes24]; omega)]
    have h2 : to_be_bytes24 address ++ data
        = address / 65536 % 256 :: address / 256 % 256 :: address % 256 :: data := by
      simp [to_be_bytes24]
    have hcond : ¬ (address / 65536 % 256 :: address / 256 % 256
        :: address % 256 :: data).length < 3 := by simp
    have hfb : from_be_bytes [address / 65536 % 256, address / 256 % 256, address % 256]
        = address := by
      simpa [to_be_bytes24] using from_be_to_be24 address ha
    simp [decode_raw_record, h2, hcond, hfb]
  | s3 address data =>
    simp only [wf_record, Bool.and_eq_true, List.all_eq_true, decide_eq_true_eq] at h
    obtain ⟨⟨ha, hlen⟩, hbytes⟩ := h
    rw [Record.encode, Record.from_str,
      raw_record_from_str_make_record 3 (to_be_bytes32 address) data (by omega)
        (fun b hb => mem_to_be32 address b hb) hbytes (by simp [to_be_bytes32]; omega)]
    have h2 : to_be_bytes32 address ++ data
        = address / 16777216 % 256 :: address / 65536 % 256
          :: address / 256 % 256 :: address % 256 :: data := by
      simp [to_be_bytes32]
    have hcond : ¬ (address / 16777216 % 256 :: address / 65536 % 256
        :: address / 256 % 256 :: address % 256 :: data).length < 4 := by simp
    have hfb : from_be_bytes [address / 16777216 % 256, address / 65536 % 256,
        address / 256 % 256, address % 256] = address := by
      simpa [to_be_bytes32] using from_be_to_be32 address ha
    simp [decode_raw_record, h2, hcond, hfb]
  | s5 count =>
    simp only [wf_record, decide_eq_true_eq] at h
    rw [Record.encode, Record.from_str,
      raw_record_from_str_make_record 5 (to_be_bytes16 count) [] (by omega)
        (fun b hb => mem_to_be16 count b hb) (by simp) (by simp [to_be_bytes16])]
    have hfb : from_be_bytes [count / 256 % 256, count % 256] = count := by
      simpa [to_be_bytes16] using from_be_to_be16 count h
    simp [decode_raw_record, to_be_bytes16, hfb]
  | s6 count =>
    simp only [wf_record, decide_eq_true_eq] at h
    rw [Record.encode, Record.from_str,
      raw_record_from_str_make_record 6 (to_be_bytes24 count) [] (by omega)
        (fun b hb => mem_to_be24 count b hb) (by simp) (by simp [to_be_bytes24])]
    have hfb : from_be_bytes [count / 65536 % 256, count / 256 % 256, count % 256] = count := by
      simpa [to_be_bytes24] using from_be_to_be24 count h
    simp [decode_raw_record, to_be_bytes24, hfb]
  | s7 address =>
    simp only [wf_record, decide_eq_true_eq] at h
    rw [Record.encode, Record.from_str,
      raw_record_from_str_make_record 7 (to_be_bytes32 address) [] (by omega)
        (fun b hb => mem_to_be32 address b hb) (by simp) (by simp [to_be_bytes32])]
    have hfb : from_be_bytes [address / 16777216 % 256, address / 65536 % 256,
        address / 256 % 256, address % 256] = address := by
      simpa [to_be_bytes32] using from_be_to_be32 address h
    simp [decode_raw_record, to_be_bytes32, hfb]
  | s8 address =>
    simp only [wf_record, decide_eq_true_eq] at h
    rw [Record.encode, Record.from_str,
      raw_record_from_str_make_record 8 (to_be_bytes24 address) [] (by omega)
        (fun b hb => mem_to_be24 address b hb) (by simp) (by simp [to_be_bytes24])]
    have hfb : from_be_bytes [address / 65536 % 256, address / 256 % 256, address % 256]
        = address := by
      simpa [to_be_bytes24] using from_be_to_be24 address h
    simp [decode_raw_record, to_be_bytes24, hfb]
  | s9 address =>
    simp only [wf_record, decide_eq_true_eq] at h
    rw [Record.encode, Record.from_str,
      raw_record_from_str_make_record 9 (to_be_bytes16 address) [] (by omega)
        (fun b hb => mem_to_be16 address b hb) (by simp) (by simp [to_be_bytes16])]
    have hfb : from_be_bytes [address / 256 % 256, address % 256] = address := by
      simpa [to_be_bytes16] using from_be_to_be16 address h
    simp [decode_raw_record, to_be_bytes16, hfb]

theorem mem_make_record_range (t : Nat) (addr data : List Nat) (ht : t ≤ 9)
    (ha : ∀ b ∈ addr, b < 256) (hd : ∀ b ∈ data, b < 256) :
    ∀ b ∈ make_record t addr data, 48 ≤ b ∧ b ≤ 83 := by
  intro b hb
  simp only [make_record, List.cons_append, List.nil_append, List.mem_cons,
    List.mem_append] at hb
  rcases hb with rfl | rfl | hb | hb
  · omega
  · omega
  · have := mem_hexString_range _ b
      (by
        intro x hx
        rcases List.mem_cons.mp hx with rfl | hx
        · exact Nat.mod_lt _ (by norm_num)
        · rcases List.mem_append.mp hx with h' | h'
          exacts [ha x h', hd x h']) hb
    omega
  · have := mem_hexByte_range _ b (checksum_of_lt _) hb
    omega

theorem mem_encode_range (r : Record) (h : wf_record r = true) :
    ∀ b ∈ r.encode, 48 ≤ b ∧ b ≤ 83 := by
  cases r <;>
    simp only [wf_record, Bool.and_eq_true, List.all_eq_true, decide_eq_true_eq] at h <;>
    refine mem_make_record_range _ _ _ (by omega) ?_ ?_ <;>
    first
      | exact fun b hb => mem_to_be16 _ b hb
      | exact fun b hb => mem_to_be24 _ b hb
      | exact fun b hb => mem_to_be32 _ b hb
      | (intro b hb; first | exact h.2 b hb | simp at hb)

theorem encode_ne_nil (r : Record) : r.encode ≠ [] := by
  cases r <;> simp [Record.encode, make_record]

theorem dropWhile_eq_self_of (p : Nat → Bool) (l : List Nat)
    (h : ∀ b ∈ l, p b = false) : l.dropWhile p = l := by
  cases l with
  | nil => rfl
  | cons x xs =>
    rw [List.dropWhile_cons, if_neg]
    simp [h x (List.mem_cons_self x xs)]

theorem trimBytes_eq_self (l : List Nat) (h : ∀ b ∈ l, isWhitespaceByte b = false) :
    trimBytes l = l := by
  unfold trimBytes
  rw [dropWhile_eq_self_of _ _ h,
    dropWhile_eq_self_of _ _ (fun b hb => h b (List.mem_reverse.mp hb)),
    List.reverse_reverse]

theorem mem_of_getLast? {l : List Nat} {x : Nat} (h : l.getLast? = some x) : x ∈ l := by
  rw [← List.head?_reverse] at h
  exact List.mem_reverse.mp (List.mem_of_mem_head? h)

theorem stripTrailingCR_eq_self (l : List Nat) (h : ∀ b ∈ l, 48 ≤ b) :
    stripTrailingCR l = l := by
  unfold stripTrailingCR
  rw [if_neg]
  intro hl
  have := h 13 (mem_of_getLast? hl)
  omega

theorem split_newlines_append (xs rest : List Nat) (h : 10 ∉ xs) :
    split_newlines (xs ++ 10 :: rest) = xs :: split_newlines rest := by
  induction xs with
  | nil => simp [split_newlines]
  | cons x xs ih =>
    have hx : ¬ x = 10 := fun e => h (by simp [e])
    have h' : 10 ∉ xs := fun hm => h (List.mem_cons_of_mem _ hm)
    simp only [List.cons_append, List.append_eq, split_newlines, if_neg hx, ih h']

theorem split_newlines_generate (records : List Record)
    (h : ∀ r ∈ records, wf_record r = true) :
    split_newlines (generate_srec_file records)
      = records.map Record.encode ++ [[]] := by
  induction records with
  | nil => rfl
  | cons r rs ih =>
    have h10 : 10 ∉ r.encode := by
      intro hm
      have := mem_encode_range r (h r (List.mem_cons_self r rs)) 10 hm
      omega
    have hg : generate_srec_file (r :: rs)
        = r.encode ++ 10 :: generate_srec_file rs := by
      simp [generate_srec_file]
    rw [hg, split_newlines_append _ _ h10,
      ih (fun x hx => h x (List.mem_cons_of_mem r hx))]
    simp

theorem lines_generate (records : List Record)
    (h : ∀ r ∈ records, wf_record r = true) :
    lines (generate_srec_file records) = records.map Record.encode := by
  unfold lines dropFinalEmpty
  rw [split_newlines_generate records h, if_pos (List.getLast?_concat _),
    List.dropLast_concat, List.map_map]
  exact List.map_congr_left (fun r hr =>
    stripTrailingCR_eq_self _ (fun b hb => (mem_encode_range r (h r hr) b hb).1))

/-- C1 (amended): for every record sequence in which addresses and counts fit
their declared widths, data bytes are byte-sized, data payload lengths keep
the byte count within one byte (at most 252/251/250 bytes for S1/S2/S3), and
S0 texts are valid UTF-8 of at most 252 bytes without a trailing NUL,
parsing the generated file yields exactly the original records, each wrapped
in `Ok`. -/
theorem claim_C1_roundtrip (records : List Record)
    (h : ∀ r ∈ records, wf_record r = true) :
    read_records (generate_srec_file records)
      = records.map (fun r => some (Except.ok r)) := by
  unfold read_records
  rw [lines_generate records h, List.map_map]
  have h1 : records.map (trimBytes ∘ Record.encode) = records.map Record.encode :=
    List.map_congr_left (fun r hr =>
      trimBytes_eq_self _ (fun b hb => by
        have := mem_encode_range r (h r hr) b hb
        simp only [isWhitespaceByte, Bool.or_eq_false_iff, decide_eq_false_iff_not]
        omega))
  rw [h1]
  have h2 : (records.map Record.encode).filter (· ≠ []) = records.map Record.encode := by
    rw [List.filter_eq_self]
    intro a ha
    obtain ⟨r, hr, rfl⟩ := List.mem_map.mp ha
    simpa using encode_ne_nil r
  rw [h2, List.map_map]
  exact List.map_congr_left (fun r hr => from_str_encode r (h r hr))

/-- C1 counterexample: three record sequences satisfying the claim's
hypotheses (addresses fit their widths, data payloads at most 254 bytes)
that do not round-trip: an S1 record with a 253-byte payload (the byte count
`1 + 2 + 253 = 256` wraps to 0 when stored `as u8`, so the line parses as
`ByteCountZero`), an S0 header whose text ends in a NUL byte (stripped on
decode), and an S6 record whose 24-bit count field holds a value above
`0xFFFFFF` (truncated on encode). -/
theorem claim_C1_counterexample :
    read_records (generate_srec_file [.s1 0 (List.replicate 253 0)])
        ≠ [some (Except.ok (.s1 0 (List.replicate 253 0)))] ∧
    read_records (generate_srec_file [.s0 [65, 0]])
        ≠ [some (Except.ok (.s0 [65, 0]))] ∧
    read_records (generate_srec_file [.s6 0x1234567])
        ≠ [some (Except.ok (.s6 0x1234567))] := by
  refine ⟨by decide, by decide, by decide⟩

/-- C1 witness: the round-trip theorem applied to the spec's end-to-end
example record list. -/
theorem claim_C1_witness :
    read_records (generate_srec_file
      [.s0 [72, 68, 82], .s1 0x1234 [0, 1, 2, 3], .s1 0x1238 [4, 5, 6, 7], .s9 0x1234])
      = [Record.s0 [72, 68, 82], .s1 0x1234 [0, 1, 2, 3],
          .s1 0x1238 [4, 5, 6, 7], .s9 0x1234].map (fun r => some (Except.ok r)) :=
  claim_C1_roundtrip _ (by decide)

/-!
## C4 / C6: the per-tag dispatch
-/

/-- C4: for every line whose raw-record stage succeeds, the dispatch enforces
the per-tag length rules — S1/S2/S3 need at least 2/3/4 remaining bytes,
S5/S9 exactly 2, S6/S8 exactly 3, S7 exactly 4 — answering `NotEnoughData`
on a violation and the corresponding record on success, and any other tag
(only 4 can follow a successful digit parse) answers `UnexpectedCharacter`;
in particular parsing `"S401FE"` is `UnexpectedCharacter`. -/
theorem claim_C4_dispatch (s : List Nat) (t : Nat) (bytes : List Nat)
    (h : raw_record_from_str s = some (.ok ⟨t, bytes⟩)) :
    ((t = 1 → bytes.length < 2 → Record.from_str s = some (.error .notEnoughData)) ∧
     (t = 1 → 2 ≤ bytes.length → Record.from_str s
        = some (.ok (.s1 (from_be_bytes (bytes.take 2)) (bytes.drop 2)))) ∧
     (t = 2 → bytes.length < 3 → Record.from_str s = some (.error .notEnoughData)) ∧
     (t = 2 → 3 ≤ bytes.length → Record.from_str s
        = some (.ok (.s2 (from_be_bytes (bytes.take 3)) (bytes.drop 3)))) ∧
     (t = 3 → bytes.length < 4 → Record.from_str s = some (.error .notEnoughData)) ∧
     (t = 3 → 4 ≤ bytes.length → Record.from_str s
        = some (.ok (.s3 (from_be_bytes (bytes.take 4)) (bytes.drop 4)))) ∧
     (t = 5 → bytes.length ≠ 2 → Record.from_str s = some (.error .notEnoughData)) ∧
     (t = 5 → bytes.length = 2 → Record.from_str s = some (.ok (.s5 (from_be_bytes bytes)))) ∧
     (t = 6 → bytes.length ≠ 3 → Record.from_str s = some (.error .notEnoughData)) ∧
     (t = 6 → bytes.length = 3 → Record.from_str s = some (.ok (.s6 (from_be_bytes bytes)))) ∧
     (t = 7 → bytes.length ≠ 4 → Record.from_str s = some (.error .notEnoughData)) ∧
     (t = 7 → bytes.length = 4 → Record.from_str s = some (.ok (.s7 (from_be_bytes bytes)))) ∧
     (t = 8 → bytes.length ≠ 3 → Record.from_str s = some (.error .notEnoughData)) ∧
     (t = 8 → bytes.length = 3 → Record.from_str s = some (.ok (.s8 (from_be_bytes bytes)))) ∧
     (t = 9 → bytes.length ≠ 2 → Record.from_str s = some (.error .notEnoughData)) ∧
     (t = 9 → bytes.length = 2 → Record.from_str s = some (.ok (.s9 (from_be_bytes bytes)))) ∧
     (t ≠ 0 → t ≠ 1 → t ≠ 2 → t ≠ 3 → t ≠ 5 → t ≠ 6 → t ≠ 7 → t ≠ 8 → t ≠ 9 →
        Record.from_str s = some (.error .unexpectedCharacter))) ∧
    Record.from_str [83, 52, 48, 49, 70, 69] = some (.error .unexpectedCharacter) := by
  have hfs : Record.from_str s = decode_raw_record ⟨t, bytes⟩ := by
    rw [Record.from_str, h]
  refine ⟨⟨?_, ?_, ?_, ?_, ?_, ?_, ?_, ?_, ?_, ?_, ?_, ?_, ?_, ?_, ?_, ?_, ?_⟩, by decide⟩ <;>
    (try (rintro rfl hl; rw [hfs]; simp [decode_raw_record, hl]))
  intro h0 h1 h2 h3 h5 h6 h7 h8 h9
  rw [hfs]
  simp [decode_raw_record, h0, h1, h2, h3, h5, h6, h7, h8, h9]

/-- C6 (amended): for an S0 line whose raw-record stage succeeds, the decode
requires at least 2 remaining bytes (the address field, which it skips);
with fewer it fails fatally (`&rr.bytes[2..]` is out of range, modelled as
`none`), and with enough the record's text is the remaining bytes after the
first two, UTF-8-validated (invalid UTF-8 is fatal, not an `Error`) with
trailing NUL bytes stripped. -/
theorem claim_C6_s0 (s : List Nat) (bytes : List Nat)
    (h : raw_record_from_str s = some (.ok ⟨0, bytes⟩)) :
    (bytes.length < 2 → Record.from_str s = none) ∧
    (2 ≤ bytes.length → utf8Valid (bytes.drop 2) = true →
      Record.from_str s = some (.ok (.s0 (dropTrailingZeros (bytes.drop 2))))) ∧
    (2 ≤ bytes.length → utf8Valid (bytes.drop 2) = false →
      Record.from_str s = none) := by
  have hfs : Record.from_str s = decode_raw_record ⟨0, bytes⟩ := by
    rw [Record.from_str, h]
  refine ⟨fun hl => ?_, fun hl hv => ?_, fun hl hv => ?_⟩ <;> rw [hfs]
  · simp [decode_raw_record, hl]
  · have hnl : ¬ bytes.length < 2 := by omega
    simp [decode_raw_record, hnl, hv]
  · have hnl : ¬ bytes.length < 2 := by omega
    simp [decode_raw_record, hnl, hv]

/-- C6 counterexample: the line `"S001FE"` passes the raw-record stage with
zero remaining bytes, yet decoding is a fatal failure (`none`), refuting
"decoding succeeds for a payload of any length ≥ 0"; and for
`"S004000041BA"` (remaining bytes `[0, 0, 0x41]`) the decoded text is
`[0x41]`, not the entire remaining bytes — the two address bytes are
skipped. -/
theorem claim_C6_counterexample :
    raw_record_from_str [83, 48, 48, 49, 70, 69] = some (.ok ⟨0, []⟩) ∧
    Record.from_str [83, 48, 48, 49, 70, 69] = none ∧
    Record.from_str [83, 48, 48, 52, 48, 48, 48, 48, 52, 49, 66, 65]
      = some (.ok (.s0 [65])) := by
  refine ⟨by decide, by decide, by decide⟩

/-- C6 witness: the amended theorem applied to the line `"S0030000FC"`
(raw bytes `[0, 0]`, empty text). -/
theorem claim_C6_witness :
    Record.from_str [83, 48, 48, 51, 48, 48, 48, 48, 70, 67]
      = some (.ok (.s0 [])) :=
  (claim_C6_s0 _ [0, 0] (by decide)).2.1 (by decide) (by decide)

/-- C4 witness: applied to `"S50212EB"`, whose raw stage yields tag 5 with
one remaining byte, so the dispatch answers `NotEnoughData`. -/
theorem claim_C4_witness :
    Record.from_str [83, 53, 48, 50, 49, 50, 69, 66]
      = some (.error .notEnoughData) :=
  (claim_C4_dispatch [83, 53, 48, 50, 49, 50, 69, 66] 5 [18]
    (by decide)).1.2.2.2.2.2.2.1 rfl (by decide)

/-!
## C7: non-hex characters in the count and byte fields
-/

theorem hexVal_isSome_lt (b : Nat) (h : (hexVal b).isSome = true) : b < 128 := by
  unfold hexVal at h
  split_ifs at h <;> first | omega | simp at h

theorem from_str_radix_ascii (x y : Nat)
    (h : (from_str_radix_hex2 [x, y]).isSome = true) : x < 128 ∧ y < 128 := by
  by_cases h43 : x = 43
  · subst h43
    simp only [from_str_radix_hex2, if_true, eq_self_iff_true] at h
    exact ⟨by omega, hexVal_isSome_lt y h⟩
  · simp only [from_str_radix_hex2, if_neg h43] at h
    rcases hx : hexVal x with _ | vx <;> rcases hy : hexVal y with _ | vy <;>
      rw [hx, hy] at h <;>
      first
        | exact ⟨hexVal_isSome_lt x (by rw [hx]; rfl), hexVal_isSome_lt y (by rw [hy]; rfl)⟩
        | simp at h

/-- A field that contains a non-hex character and is not the `+digit` form
fails `from_str_radix`. -/
theorem from_str_radix_none (b0 b1 : Nat)
    (hbad : hexVal b0 = none ∨ hexVal b1 = none)
    (hplus : ¬ (b0 = 43 ∧ (hexVal b1).isSome = true)) :
    from_str_radix_hex2 [b0, b1] = none := by
  by_cases h43 : b0 = 43
  · simp only [from_str_radix_hex2, if_pos h43]
    rcases hv : hexVal b1 with _ | v
    · rfl
    · exact absurd ⟨h43, by rw [hv]; rfl⟩ hplus
  · simp only [from_str_radix_hex2, if_neg h43]
    rcases hx : hexVal b0 with _ | vx <;> rcases hy : hexVal b1 with _ | vy <;>
      simp_all

theorem read_bytes_bad (good : List (Nat × Nat)) (n : Nat) (b0 b1 : Nat) (rest : List Nat)
    (hg : ∀ p ∈ good, (from_str_radix_hex2 [p.1, p.2]).isSome = true)
    (hlen : good.length < n) (hb0 : b0 < 128) (_hb1 : b1 < 128)
    (hrest : rest = [] ∨ ∃ c cs, rest = c :: cs ∧ c < 128)
    (hbad : from_str_radix_hex2 [b0, b1] = none) :
    read_bytes n (pairBytes good ++ b0 :: b1 :: rest) = some (.error .unexpectedCharacter) := by
  induction good generalizing n with
  | nil =>
    obtain ⟨m, rfl⟩ : ∃ m, n = m + 1 := ⟨n - 1, by omega⟩
    show read_bytes (m + 1) (b0 :: b1 :: rest) = _
    unfold read_bytes
    rw [if_neg (by simp)]
    have hsplit : split_at 2 (b0 :: b1 :: rest) = some ([b0, b1], rest) := by
      rw [split_at_some]
      · simp
      · simp
      · intro b hb
        rcases hrest with rfl | ⟨c, cs, rfl, hc⟩
        · simp at hb
        · simp at hb
          omega
    simp only [hsplit, hbad]
  | cons p good ih =>
    obtain ⟨m, rfl⟩ : ∃ m, n = m + 1 := ⟨n - 1, by omega⟩
    obtain ⟨a0, a1⟩ := p
    have hp := hg (a0, a1) (List.mem_cons_self _ _)
    have ha := from_str_radix_ascii a0 a1 hp
    obtain ⟨v, hv⟩ := Option.isSome_iff_exists.mp hp
    have hPB : pairBytes ((a0, a1) :: good) ++ b0 :: b1 :: rest
        = a0 :: a1 :: (pairBytes good ++ b0 :: b1 :: rest) := by
      simp [pairBytes]
    rw [hPB]
    unfold read_bytes
    rw [if_neg (by simp)]
    have hsplit : split_at 2 (a0 :: a1 :: (pairBytes good ++ b0 :: b1 :: rest))
        = some ([a0, a1], pairBytes good ++ b0 :: b1 :: rest) := by
      rw [split_at_some]
      · simp
      · simp
      · intro b hb
        simp only [List.getElem?_cons_succ] at hb
        rcases good with _ | ⟨⟨c0, c1⟩, good'⟩
        · simp [pairBytes] at hb
          omega
        · have hc := from_str_radix_ascii c0 c1 (hg (c0, c1)
            (List.mem_cons_of_mem _ (List.mem_cons_self _ _)))
          simp [pairBytes] at hb
          omega
    have hv2 : from_str_radix_hex2 [a0, a1] = some v := hv
    simp only [hsplit, hv2,
      ih m (fun q hq => hg q (List.mem_cons_of_mem _ hq)) (by simp at hlen; omega)]

/-- C7 (amended): a 2-character field (the byte count, or any byte field the
loop actually reads) containing a character that is not a hex digit yields
`UnexpectedCharacter` — provided the line's characters are single-byte
(ASCII) and the field is not a `+` followed by a hex digit, which Rust's
`from_str_radix` accepts as that digit's value.  (A multi-byte character can
put the fixed split points inside a character, which panics instead.)  The
first conjunct covers the byte-count field, the second a byte field reached
after `good` well-formed fields, with the count parsed as `n > good.length`. -/
theorem claim_C7_field_hex :
    (∀ d b0 b1 rest, 48 ≤ d → d ≤ 57 → b0 < 128 → b1 < 128 →
      (rest = [] ∨ ∃ c cs, rest = c :: cs ∧ c < 128) →
      (hexVal b0 = none ∨ hexVal b1 = none) →
      ¬ (b0 = 43 ∧ (hexVal b1).isSome = true) →
      raw_record_from_str (83 :: d :: b0 :: b1 :: rest)
        = some (.error .unexpectedCharacter)) ∧
    (∀ d c0 c1 n good b0 b1 rest,
      48 ≤ d → d ≤ 57 →
      from_str_radix_hex2 [c0, c1] = some n → n ≠ 0 →
      (∀ p ∈ good, (from_str_radix_hex2 [p.1, p.2]).isSome = true) →
      good.length < n → b0 < 128 → b1 < 128 →
      (rest = [] ∨ ∃ c cs, rest = c :: cs ∧ c < 128) →
      (hexVal b0 = none ∨ hexVal b1 = none) →
      ¬ (b0 = 43 ∧ (hexVal b1).isSome = true) →
      raw_record_from_str (83 :: d :: c0 :: c1 :: (pairBytes good ++ b0 :: b1 :: rest))
        = some (.error .unexpectedCharacter)) := by
  constructor
  · intro d b0 b1 rest hd1 hd2 hb0 hb1 hrest hbadhex hplus
    have hbad : from_str_radix_hex2 [b0, b1] = none :=
      from_str_radix_none b0 b1 hbadhex hplus
    have hsA : split_at 1 (83 :: d :: b0 :: b1 :: rest)
        = some ([83], d :: b0 :: b1 :: rest) := by
      rw [split_at_some] <;> simp
      omega
    have hsB : split_at 1 (d :: b0 :: b1 :: rest)
        = some ([d], b0 :: b1 :: rest) := by
      rw [split_at_some] <;> simp
      omega
    have hparse : parse_u8_decimal [d] = some (d - 48) := by
      simp only [parse_u8_decimal, if_pos (by omega : 48 ≤ d ∧ d ≤ 57)]
    have hsC : split_at 2 (b0 :: b1 :: rest) = some ([b0, b1], rest) := by
      rw [split_at_some]
      · simp
      · simp
      · intro b hb
        rcases hrest with rfl | ⟨c, cs, rfl, hc⟩
        · simp at hb
        · simp at hb
          omega
    have hL0 : ¬ ((83 : Nat) :: d :: b0 :: b1 :: rest).length < 1 := by simp
    have hL1 : ¬ (d :: b0 :: b1 :: rest).length < 1 := by simp
    have hL2 : ¬ (b0 :: b1 :: rest).length < 2 := by simp
    simp only [raw_record_from_str, hL0, hL1, hL2, hsA, hsB, hparse, hsC, hbad,
      if_false, ite_false, ne_eq, not_true_eq_false, not_false_eq_true, reduceCtorEq]
  · intro d c0 c1 n good b0 b1 rest hd1 hd2 hcount hn0 hgood hlen hb0 hb1 hrest
      hbadhex hplus
    have hbad : from_str_radix_hex2 [b0, b1] = none :=
      from_str_radix_none b0 b1 hbadhex hplus
    have hc01 := from_str_radix_ascii c0 c1 (by rw [hcount]; rfl)
    have hheadR : ∀ b, (pairBytes good ++ b0 :: b1 :: rest)[0]? = some b → b < 128 := by
      intro b hb
      rcases good with _ | ⟨⟨a0, a1⟩, good'⟩
      · simp [pairBytes] at hb
        omega
      · have := from_str_radix_ascii a0 a1 (hgood (a0, a1) (List.mem_cons_self _ _))
        simp [pairBytes] at hb
        omega
    have hsA : split_at 1 (83 :: d :: c0 :: c1 :: (pairBytes good ++ b0 :: b1 :: rest))
        = some ([83], d :: c0 :: c1 :: (pairBytes good ++ b0 :: b1 :: rest)) := by
      rw [split_at_some] <;> simp
      omega
    have hsB : split_at 1 (d :: c0 :: c1 :: (pairBytes good ++ b0 :: b1 :: rest))
        = some ([d], c0 :: c1 :: (pairBytes good ++ b0 :: b1 :: rest)) := by
      rw [split_at_some] <;> simp
      omega
    have hparse : parse_u8_decimal [d] = some (d - 48) := by
      simp only [parse_u8_decimal, if_pos (by omega : 48 ≤ d ∧ d ≤ 57)]
    have hsC : split_at 2 (c0 :: c1 :: (pairBytes good ++ b0 :: b1 :: rest))
        = some ([c0, c1], pairBytes good ++ b0 :: b1 :: rest) := by
      rw [split_at_some]
      · simp
      · simp
      · intro b hb
        simp only [List.getElem?_cons_succ] at hb
        exact hheadR b hb
    have hrb : read_bytes n (pairBytes good ++ b0 :: b1 :: rest)
        = some (.error .unexpectedCharacter) :=
      read_bytes_bad good n b0 b1 rest hgood hlen hb0 hb1 hrest hbad
    have hL0 : ¬ ((83 : Nat) :: d :: c0 :: c1
        :: (pairBytes good ++ b0 :: b1 :: rest)).length < 1 := by simp
    have hL1 : ¬ (d :: c0 :: c1 :: (pairBytes good ++ b0 :: b1 :: rest)).length < 1 := by
      simp
    have hL2 : ¬ (c0 :: c1 :: (pairBytes good ++ b0 :: b1 :: rest)).length < 2 := by simp
    simp only [raw_record_from_str, hL0, hL1, hL2, hsA, hsB, hparse, hsC, hcount,
      hn0, hrb, if_false, ite_false, ne_eq, not_true_eq_false, not_false_eq_true,
      reduceCtorEq, if_neg hn0]

/-- C7 counterexample: the line `"S5+31234B6"` has a non-hex character `+` in
its byte-count field yet parses successfully as `S5(0x1234)` (Rust's
`from_str_radix` accepts a leading plus), and the line `"S1€"` (bytes
`[83, 49, 0xE2, 0x82, 0xAC]`) has a non-hex character in the byte-count
field yet panics (`none`) rather than returning `UnexpectedCharacter`,
because the 2-byte split lands inside the 3-byte character. -/
theorem claim_C7_counterexample :
    Record.from_str [83, 53, 43, 51, 49, 50, 51, 52, 66, 54]
      = some (.ok (.s5 0x1234)) ∧
    Record.from_str [83, 49, 226, 130, 172] = none := by
  refine ⟨by decide, by decide⟩

/-- C7 witness: the amended theorem applied to `"S10z"` (non-hex `z` in the
byte-count field) and to `"S5030z1234B6"`-like `"S1020z11EC"` (non-hex `z`
in the first byte field after a well-formed count of 2). -/
theorem claim_C7_witness :
    raw_record_from_str [83, 49, 48, 122] = some (.error .unexpectedCharacter) ∧
    raw_record_from_str [83, 49, 48, 50, 48, 122, 49, 49, 69, 67]
      = some (.error .unexpectedCharacter) :=
  ⟨claim_C7_field_hex.1 49 48 122 [] (by omega) (by omega) (by omega) (by omega)
      (Or.inl rfl) (Or.inr (by decide)) (by decide),
   claim_C7_field_hex.2 49 48 50 2 [] 48 122 [49, 49, 69, 67] (by omega) (by omega)
      (by decide) (by omega) (by intro p hp; cases hp) (by decide) (by omega) (by omega)
      (Or.inr ⟨49, [49, 69, 67], rfl, by omega⟩) (Or.inr (by decide)) (by decide)⟩

theorem blocksDisjoint_iff (x y : Block) :
    blocksDisjoint x y ↔ ∀ n, ¬ (inBlock x n ∧ inBlock y n) := by
  unfold blocksDisjoint inBlock
  constructor
  · intro h n hn
    omega
  · intro h hlt
    exact h (max x.address y.address) (by omega)

theorem blocksDisjoint_symm {x y : Block} (h : blocksDisjoint x y) :
    blocksDisjoint y x := by
  unfold blocksDisjoint at h ⊢
  omega

/-- A passing overlap check means the new range is disjoint from every
existing block's range. -/
theorem overlap_check_false (blocks : List Block) (address : Nat) (data : List Nat)
    (h : blocks.any (rangeOverlapsNew address data.length) = false) :
    ∀ b ∈ blocks, blocksDisjoint b ⟨address, data⟩ := by
  intro b hb
  rw [blocksDisjoint_iff]
  rintro n ⟨⟨h1, h2⟩, h3, h4⟩
  have hfb : (List.range b.data.length).any (fun i =>
      decide (address ≤ b.address + i) && decide (b.address + i < address + data.length))
        = false := by
    have := (List.any_eq_false.mp h) b hb
    simpa [rangeOverlapsNew] using this
  rw [List.any_eq_false] at hfb
  have hmem : n - b.address ∈ List.range b.data.length := by
    rw [List.mem_range]
    unfold blockEnd at h2
    omega
  have := hfb _ hmem
  simp only [Bool.and_eq_true, decide_eq_true_eq, not_and] at this
  unfold blockEnd at h2 h4
  simp at h3 h4
  omega

/-- A shared address makes the overlap check fire. -/
theorem overlap_check_true (blocks : List Block) (address : Nat) (data : List Nat)
    (h : ∃ b ∈ blocks, ∃ n, inBlock b n ∧ address ≤ n ∧ n < address + data.length) :
    blocks.any (rangeOverlapsNew address data.length) = true := by
  obtain ⟨b, hb, n, ⟨h1, h2⟩, h3, h4⟩ := h
  rw [List.any_eq_true]
  refine ⟨b, hb, ?_⟩
  rw [rangeOverlapsNew, List.any_eq_true]
  refine ⟨n - b.address, ?_, ?_⟩
  · rw [List.mem_range]
    unfold blockEnd at h2
    omega
  · simp only [Bool.and_eq_true, decide_eq_true_eq]
    omega

/-- C8: a call whose range shares at least one address with an existing
block's range is rejected as a fatal precondition violation (`none`; the
panic fires before any mutation, so the pure image value is untouched). -/
theorem claim_C8_overlap (img : Image) (address : Nat) (data : List Nat)
    (h : ∃ b ∈ img.blocks, ∃ n, inBlock b n ∧ address ≤ n ∧ n < address + data.length) :
    Image.add_data img address data = none := by
  unfold Image.add_data
  rw [if_pos (overlap_check_true img.blocks address data h)]

/-- C8 witness: adding 4 bytes at 3 over an existing block of 4 bytes at 0
(the repo's own overlap test) is rejected. -/
theorem claim_C8_witness :
    Image.add_data ⟨[⟨0, [0x11, 0x22, 0x33, 0x44]⟩]⟩ 3 [0x55, 0x66, 0x77, 0x88] = none :=
  claim_C8_overlap _ 3 _
    ⟨⟨0, [0x11, 0x22, 0x33, 0x44]⟩, by simp, 3, by constructor <;> simp [inBlock, blockEnd]⟩

theorem insertBlock_perm (x : Block) (l : List Block) :
    List.Perm (insertBlock x l) (x :: l) := by
  induction l with
  | nil => rfl
  | cons y l ih =>
    rw [insertBlock]
    split_ifs
    · rfl
    · exact ((ih.cons y).trans (List.Perm.swap x y l))

theorem sortBlocks_perm (l : List Block) : List.Perm (sortBlocks l) l := by
  suffices h : ∀ acc, List.Perm (l.foldl (fun a x => insertBlock x a) acc) (l ++ acc) by
    simpa using h []
  induction l with
  | nil => intro acc; simp
  | cons x l ih =>
    intro acc
    rw [List.foldl_cons]
    refine (ih (insertBlock x acc)).trans ?_
    refine (List.Perm.append_left l (insertBlock_perm x acc)).trans ?_
    exact List.perm_middle

theorem insertBlock_sorted (x : Block) (l : List Block)
    (h : List.Pairwise (fun a b => a.address ≤ b.address) l) :
    List.Pairwise (fun a b => a.address ≤ b.address) (insertBlock x l) := by
  induction l with
  | nil => simp [insertBlock]
  | cons y l ih =>
    rw [insertBlock]
    rcases List.pairwise_cons.mp h with ⟨hy, hl⟩
    split_ifs with hlt
    · exact List.pairwise_cons.mpr ⟨by
        intro b hb
        rcases List.mem_cons.mp hb with rfl | hb
        · omega
        · have := hy b hb
          omega, h⟩
    · refine List.pairwise_cons.mpr ⟨?_, ih hl⟩
      intro b hb
      have := (insertBlock_perm x l).mem_iff.mp hb
      rcases List.mem_cons.mp this with rfl | hb2
      · omega
      · exact hy b hb2

theorem sortBlocks_sorted (l : List Block) :
    List.Pairwise (fun a b => a.address ≤ b.address) (sortBlocks l) := by
  suffices h : ∀ acc, List.Pairwise (fun a b => a.address ≤ b.address) acc →
      List.Pairwise (fun a b => a.address ≤ b.address)
        (l.foldl (fun a x => insertBlock x a) acc) by
    exact h [] List.Pairwise.nil
  induction l with
  | nil => intro acc hacc; simpa using hacc
  | cons x l ih =>
    intro acc hacc
    rw [List.foldl_cons]
    exact ih _ (insertBlock_sorted x acc hacc)

theorem insertBlock_append_of_le (x : Block) (l : List Block)
    (h : ∀ y ∈ l, y.address ≤ x.address) : insertBlock x l = l ++ [x] := by
  induction l with
  | nil => rfl
  | cons y l ih =>
    rw [insertBlock, if_neg (by have := h y (List.mem_cons_self y l); omega)]
    rw [ih (fun z hz => h z (List.mem_cons_of_mem y hz))]
    rfl

theorem sortBlocks_eq_of_sorted (l : List Block)
    (h : List.Pairwise (fun a b => a.address ≤ b.address) l) : sortBlocks l = l := by
  suffices hgen : ∀ l acc, List.Pairwise (fun a b : Block => a.address ≤ b.address) (acc ++ l) →
      l.foldl (fun a x => insertBlock x a) acc = acc ++ l by
    simpa using hgen l [] (by simpa using h)
  intro l
  induction l with
  | nil => intro acc hacc; simp
  | cons x l ih =>
    intro acc hacc
    rw [List.foldl_cons, insertBlock_append_of_le x acc (by
      intro y hy
      exact (List.pairwise_append.mp hacc).2.2 y hy x (List.mem_cons_self x l))]
    rw [ih (acc ++ [x]) (by simpa using hacc)]
    simp

theorem sortBlocks_append_singleton (l : List Block) (x : Block)
    (h : List.Pairwise (fun a b => a.address ≤ b.address) l) :
    sortBlocks (l ++ [x]) = insertBlock x l := by
  unfold sortBlocks
  rw [List.foldl_append]
  have : l.foldl (fun a y => insertBlock y a) [] = l := sortBlocks_eq_of_sorted l h
  rw [this]
  rfl

theorem insertBlock_decompose (x : Block) (l : List Block)
    (h : List.Pairwise (fun a b => a.address ≤ b.address) l) :
    ∃ p s, insertBlock x l = p ++ x :: s ∧ l = p ++ s ∧
      (∀ y ∈ p, y.address ≤ x.address) ∧ (∀ y ∈ s, x.address < y.address) := by
  induction l with
  | nil => exact ⟨[], [], rfl, rfl, by simp, by simp⟩
  | cons y l ih =>
    rcases List.pairwise_cons.mp h with ⟨hy, hl⟩
    rw [insertBlock]
    split_ifs with hlt
    · refine ⟨[], y :: l, rfl, rfl, by simp, ?_⟩
      intro z hz
      rcases List.mem_cons.mp hz with rfl | hz
      · omega
      · have := hy z hz
        omega
    · obtain ⟨p, s, h1, h2, h3, h4⟩ := ih hl
      exact ⟨y :: p, s, by rw [h1]; rfl, by rw [h2]; rfl,
        by
          intro z hz
          rcases List.mem_cons.mp hz with rfl | hz
          · omega
          · exact h3 z hz,
        h4⟩

theorem mergeAll_cons_nil (a : Block) (l : List Block) (hm : mergeAll l = []) :
    mergeAll (a :: l) = [a] := by
  rw [mergeAll, hm]

theorem mergeAll_cons_eq (a b : Block) (rest2 l : List Block)
    (hm : mergeAll l = b :: rest2) :
    mergeAll (a :: l) = if blockEnd a = b.address
      then ⟨a.address, a.data ++ b.data⟩ :: rest2 else a :: b :: rest2 := by
  rw [mergeAll, hm]

/-- The merge fold never changes the head block's start address. -/
theorem mergeAll_cons_head (a : Block) (l : List Block) :
    ∃ d tl, mergeAll (a :: l) = ⟨a.address, d⟩ :: tl := by
  rcases hm : mergeAll l with _ | ⟨b, rest2⟩
  · exact ⟨a.data, [], by rw [mergeAll_cons_nil a l hm]⟩
  · rw [mergeAll_cons_eq a b rest2 l hm]
    split_ifs
    · exact ⟨a.data ++ b.data, rest2, rfl⟩
    · exact ⟨a.data, b :: rest2, by cases a; rfl⟩

/-- Every address appearing as a block start in the merge result was a block
start in the input. -/
theorem mergeAll_mem_address (l : List Block) (x : Block) (h : x ∈ mergeAll l) :
    ∃ y ∈ l, y.address = x.address := by
  induction l with
  | nil => cases h
  | cons a l ih =>
    rcases hm : mergeAll l with _ | ⟨b, rest2⟩
    · rw [mergeAll_cons_nil a l hm] at h
      rcases List.mem_singleton.mp h with rfl
      exact ⟨x, List.mem_cons_self _ _, rfl⟩
    · rw [mergeAll_cons_eq a b rest2 l hm] at h
      split_ifs at h
      · rcases List.mem_cons.mp h with rfl | hx
        · exact ⟨a, List.mem_cons_self _ _, rfl⟩
        · obtain ⟨y, hy, hya⟩ := ih (by rw [hm]; exact List.mem_cons_of_mem b hx)
          exact ⟨y, List.mem_cons_of_mem a hy, hya⟩
      · rcases List.mem_cons.mp h with rfl | hx
        · exact ⟨x, List.mem_cons_self _ _, rfl⟩
        · obtain ⟨y, hy, hya⟩ := ih (by rw [hm]; exact hx)
          exact ⟨y, List.mem_cons_of_mem a hy, hya⟩

/-- Every address covered by a block of the merge result was covered by a
block of the input. -/
theorem mergeAll_mem_range (l : List Block) (x : Block) (h : x ∈ mergeAll l)
    (n : Nat) (hn : inBlock x n) : ∃ y ∈ l, inBlock y n := by
  induction l generalizing x with
  | nil => cases h
  | cons a l ih =>
    rcases hm : mergeAll l with _ | ⟨b, rest2⟩
    · rw [mergeAll_cons_nil a l hm] at h
      rcases List.mem_singleton.mp h with rfl
      exact ⟨x, List.mem_cons_self _ _, hn⟩
    · rw [mergeAll_cons_eq a b rest2 l hm] at h
      split_ifs at h with hc
      · rcases List.mem_cons.mp h with rfl | hx
        · unfold inBlock blockEnd at hn
          simp only [List.length_append] at hn
          by_cases hsplit : n < blockEnd a
          · exact ⟨a, List.mem_cons_self _ _, ⟨hn.1, hsplit⟩⟩
          · obtain ⟨y, hy, hyn⟩ := ih b (by rw [hm]; exact List.mem_cons_self _ _)
              (by unfold blockEnd at hsplit; unfold inBlock blockEnd; unfold blockEnd at hc; omega)
            exact ⟨y, List.mem_cons_of_mem a hy, hyn⟩
        · obtain ⟨y, hy, hyn⟩ := ih x (by rw [hm]; exact List.mem_cons_of_mem b hx) hn
          exact ⟨y, List.mem_cons_of_mem a hy, hyn⟩
      · rcases List.mem_cons.mp h with rfl | hx
        · exact ⟨x, List.mem_cons_self _ _, hn⟩
        · obtain ⟨y, hy, hyn⟩ := ih x (by rw [hm]; exact hx) hn
          exact ⟨y, List.mem_cons_of_mem a hy, hyn⟩

/-- After the merge fold no adjacent pair is contiguous (the loop's exit
condition). -/
theorem mergeAll_chain (l : List Block) :
    List.Chain' (fun x y => blockEnd x ≠ y.address) (mergeAll l) := by
  induction l with
  | nil => simp [mergeAll]
  | cons a l ih =>
    rcases hm : mergeAll l with _ | ⟨b, rest2⟩
    · rw [mergeAll_cons_nil a l hm]
      simp
    · rw [hm] at ih
      rcases List.chain'_cons'.mp ih with ⟨hb, hrest⟩
      rw [mergeAll_cons_eq a b rest2 l hm]
      split_ifs with hc
      · refine List.chain'_cons'.mpr ⟨?_, hrest⟩
        intro y hy
        have := hb y hy
        unfold blockEnd at this hc ⊢
        simp only [List.length_append]
        omega
      · exact List.chain'_cons'.mpr ⟨by
          intro y hy
          rw [List.head?_cons] at hy
          cases hy
          exact hc, ih⟩

/-- A list with no contiguous adjacent pair is a fixed point of the merge
fold. -/
theorem mergeAll_eq_self (l : List Block)
    (h : List.Chain' (fun x y => blockEnd x ≠ y.address) l) : mergeAll l = l := by
  induction l with
  | nil => rfl
  | cons a l ih =>
    rcases List.chain'_cons'.mp h with ⟨ha, hl⟩
    rcases l with _ | ⟨b, rest⟩
    · rfl
    · rw [mergeAll_cons_eq a b rest (b :: rest) (ih hl), if_neg (ha b rfl)]

/-- Sortedness survives the merge fold. -/
theorem mergeAll_sorted (l : List Block)
    (h : List.Pairwise (fun x y => x.address ≤ y.address) l) :
    List.Pairwise (fun x y => x.address ≤ y.address) (mergeAll l) := by
  induction l with
  | nil => simp [mergeAll]
  | cons a l ih =>
    rcases List.pairwise_cons.mp h with ⟨ha, hl⟩
    rcases hm : mergeAll l with _ | ⟨b, rest2⟩
    · rw [mergeAll_cons_nil a l hm]
      simp
    · have hsorted := ih hl
      rw [hm] at hsorted
      rcases List.pairwise_cons.mp hsorted with ⟨hb, hrest⟩
      have hmem : ∀ x ∈ b :: rest2, a.address ≤ x.address := by
        intro x hx
        obtain ⟨y, hy, hya⟩ := mergeAll_mem_address l x (by rw [hm]; exact hx)
        have := ha y hy
        omega
      rw [mergeAll_cons_eq a b rest2 l hm]
      split_ifs with hc
      · refine List.pairwise_cons.mpr ⟨?_, hrest⟩
        intro x hx
        exact hmem x (List.mem_cons_of_mem b hx)
      · exact List.pairwise_cons.mpr ⟨hmem, hsorted⟩

/-- Pairwise disjointness survives the merge fold. -/
theorem mergeAll_disjoint (l : List Block)
    (h : List.Pairwise blocksDisjoint l) :
    List.Pairwise blocksDisjoint (mergeAll l) := by
  induction l with
  | nil => simp [mergeAll]
  | cons a l ih =>
    rcases List.pairwise_cons.mp h with ⟨ha, hl⟩
    rcases hm : mergeAll l with _ | ⟨b, rest2⟩
    · rw [mergeAll_cons_nil a l hm]
      simp
    · have hdisj := ih hl
      rw [hm] at hdisj
      rcases List.pairwise_cons.mp hdisj with ⟨hb, hrest⟩
      have hnew : ∀ x ∈ mergeAll l, blocksDisjoint a x := by
        intro x hx
        rw [blocksDisjoint_iff]
        rintro n ⟨hna, hnx⟩
        obtain ⟨y, hy, hyn⟩ := mergeAll_mem_range l x hx n hnx
        exact (blocksDisjoint_iff a y).mp (ha y hy) n ⟨hna, hyn⟩
      rw [mergeAll_cons_eq a b rest2 l hm]
      split_ifs with hc
      · refine List.pairwise_cons.mpr ⟨?_, hrest⟩
        intro x hx
        rw [blocksDisjoint_iff]
        rintro n ⟨hnm, hnx⟩
        have hsplitn : inBlock a n ∨ inBlock b n := by
          unfold inBlock blockEnd at hnm ⊢
          simp only [List.length_append] at hnm
          unfold blockEnd at hc
          omega
        rcases hsplitn with hna | hnb
        · exact (blocksDisjoint_iff a x).mp
            (hnew x (by rw [hm]; exact List.mem_cons_of_mem b hx)) n ⟨hna, hnx⟩
        · exact (blocksDisjoint_iff b x).mp (hb x hx) n ⟨hnb, hnx⟩
      · exact List.pairwise_cons.mpr
          ⟨fun x hx => hnew x (by rw [hm]; exact hx), hdisj⟩

/-- C2 counterexample: starting from the empty image, `add_data(5, [97,98])`
then `add_data(5, [])` both return normally (the empty range contains no
address, so the overlap check passes), leaving the blocks
`[(5, [97,98]), (5, [])]`; the empty block's end address (5) equals the
other block's start address (5), so the all-pairs reading of "no block's end
address equals another block's start address" fails on a reachable image. -/
theorem claim_C2_counterexample :
    Image.add_data ⟨[]⟩ 5 [97, 98] = some ⟨[⟨5, [97, 98]⟩]⟩ ∧
    Image.add_data ⟨[⟨5, [97, 98]⟩]⟩ 5 [] = some ⟨[⟨5, [97, 98]⟩, ⟨5, []⟩]⟩ ∧
    ¬ List.Pairwise (fun x y => blockEnd x ≠ y.address ∧ blockEnd y ≠ x.address)
        [⟨5, [97, 98]⟩, (⟨5, []⟩ : Block)] := by
  refine ⟨by decide, by decide, by decide⟩

/-- C2 (amended): the empty image of `Image::new` satisfies the invariant —
blocks sorted by address (non-decreasing), no block contiguous with its
immediate successor in the list, all ranges pairwise disjoint — and every
normally-returning `add_data` call preserves it (an empty-data insertion can
leave a zero-length block whose degenerate end address coincides with
another block's start, which is why non-adjacency holds for consecutive
blocks rather than all pairs); and inserting byte runs at 0x0, 0x5, 0x4
(lengths 4, 4, 1, in that order) leaves exactly one block at address 0
holding 9 bytes. -/
theorem claim_C2_invariant :
    validBlocks Image.new.blocks ∧
    (∀ img address data img', validBlocks img.blocks →
      Image.add_data img address data = some img' → validBlocks img'.blocks) ∧
    ((Image.add_data ⟨[]⟩ 0 [0x11, 0x22, 0x33, 0x44]).bind
        (fun i => (Image.add_data i 5 [0x66, 0x77, 0x88, 0x99]).bind
          (fun i2 => Image.add_data i2 4 [0x55])))
      = some ⟨[⟨0, [0x11, 0x22, 0x33, 0x44, 0x55, 0x66, 0x77, 0x88, 0x99]⟩]⟩ := by
  refine ⟨⟨List.Pairwise.nil, List.chain'_nil, List.Pairwise.nil⟩, ?_, by decide⟩
  intro img address data img' hvalid hadd
  obtain ⟨hsorted, hchain, hdisj⟩ := hvalid
  unfold Image.add_data at hadd
  by_cases hcheck : img.blocks.any (rangeOverlapsNew address data.length) = true
  · rw [if_pos hcheck] at hadd
    cases hadd
  · rw [if_neg hcheck] at hadd
    have hfree := overlap_check_false img.blocks address data
      (Bool.not_eq_true _ ▸ hcheck)
    obtain rfl : img' = ⟨mergeAll (sortBlocks (img.blocks ++ [⟨address, data⟩]))⟩ :=
      (Option.some.injEq _ _ ▸ hadd).symm
    set L := img.blocks ++ [⟨address, data⟩] with hL
    have hLdisj : List.Pairwise blocksDisjoint L := by
      rw [hL, List.pairwise_append]
      exact ⟨hdisj, List.pairwise_singleton _ _,
        fun x hx y hy => by
          rcases List.mem_singleton.mp hy with rfl
          exact hfree x hx⟩
    have hperm : List.Perm (sortBlocks L) L := sortBlocks_perm L
    refine ⟨mergeAll_sorted _ (sortBlocks_sorted L), mergeAll_chain _, ?_⟩
    refine mergeAll_disjoint _ ?_
    exact (hperm.pairwise_iff (fun h => blocksDisjoint_symm h)).mpr hLdisj

/-- C2 witness: the invariant-preservation part applied to a concrete valid
image and insertion. -/
theorem claim_C2_witness :
    validBlocks (Image.mk [⟨0, [1, 2, 3, 4]⟩]).blocks ∧
    validBlocks (Image.mk [⟨0, [1, 2, 3, 4]⟩, ⟨6, [9]⟩]).blocks :=
  ⟨by simp [validBlocks, blocksDisjoint, blockEnd],
   claim_C2_invariant.2.1 ⟨[⟨0, [1, 2, 3, 4]⟩]⟩ 6 [9] ⟨[⟨0, [1, 2, 3, 4]⟩, ⟨6, [9]⟩]⟩
     (by simp [validBlocks, blocksDisjoint, blockEnd]) (by decide)⟩

theorem mergeAll_empty_block_cons (a : Nat) (s : List Block)
    (hchain : List.Chain' (fun x y => blockEnd x ≠ y.address) s)
    (hs : ∀ y ∈ s, a < y.address) :
    mergeAll (⟨a, []⟩ :: s) = ⟨a, []⟩ :: s := by
  apply mergeAll_eq_self
  refine List.chain'_cons'.mpr ⟨?_, hchain⟩
  intro y hy
  have hmem : y ∈ s := by
    cases s
    · cases hy
    · rw [List.head?_cons] at hy
      cases hy
      exact List.mem_cons_self _ _
  have := hs y hmem
  simp only [blockEnd, List.length_nil, Nat.add_zero]
  omega

/-- Inserting a zero-length block between a prefix and a suffix of a
non-contiguous list keeps every original block in the merge result (the only
possible merge absorbs the empty block into its predecessor without
changing that predecessor's address or data). -/
theorem mergeAll_insert_middle (p s : List Block) (a : Nat)
    (hchain : List.Chain' (fun x y => blockEnd x ≠ y.address) (p ++ s))
    (hs : ∀ y ∈ s, a < y.address) :
    ∀ b ∈ p ++ s, b ∈ mergeAll (p ++ ⟨a, []⟩ :: s) := by
  induction p with
  | nil =>
    simp only [List.nil_append] at hchain ⊢
    rw [mergeAll_empty_block_cons a s hchain hs]
    intro b hb
    exact List.mem_cons_of_mem _ hb
  | cons x p' ih =>
    simp only [List.cons_append] at hchain ⊢
    rcases List.chain'_cons'.mp hchain with ⟨hx, htail⟩
    rcases p' with _ | ⟨z, p''⟩
    · simp only [List.nil_append] at htail hx ⊢
      have hm : mergeAll (⟨a, []⟩ :: s) = ⟨a, []⟩ :: s :=
        mergeAll_empty_block_cons a s htail hs
      rw [mergeAll_cons_eq x ⟨a, []⟩ s (⟨a, []⟩ :: s) hm]
      split_ifs with hc
      · have hxeq : (⟨x.address, x.data ++ []⟩ : Block) = x := by
          cases x
          simp
      
        rw [hxeq]
        intro b hb
        exact hb
      · intro b hb
        rcases List.mem_cons.mp hb with rfl | hb
        · exact List.mem_cons_self _ _
        · exact List.mem_cons_of_mem _ (List.mem_cons_of_mem _ hb)
    · have hlink : blockEnd x ≠ z.address := hx z rfl
      have ihz := ih htail
      obtain ⟨d, tl, hm⟩ := mergeAll_cons_head z (p'' ++ ⟨a, []⟩ :: s)
      have hm2 : mergeAll ((z :: p'') ++ ⟨a, []⟩ :: s) = ⟨z.address, d⟩ :: tl := hm
      rw [mergeAll_cons_eq x ⟨z.address, d⟩ tl ((z :: p'') ++ ⟨a, []⟩ :: s) hm2,
        if_neg hlink]
      intro b hb
      rcases List.mem_cons.mp hb with rfl | hb
      · exact List.mem_cons_self _ _
      · have := ihz b hb
        rw [hm2] at this
        exact List.mem_cons_of_mem _ this

/-- C10: adding an empty byte sequence is never rejected by the overlap
check — even at an address strictly inside an existing block's range — the
call returns normally and every existing block keeps its address and bytes
(the inserted zero-length block either survives harmlessly or is absorbed
by its predecessor, whose data it does not change). -/
theorem claim_C10_empty_data (img : Image) (address : Nat)
    (h : validBlocks img.blocks) :
    ∃ img', Image.add_data img address [] = some img' ∧
      ∀ b ∈ img.blocks, b ∈ img'.blocks := by
  obtain ⟨hsorted, hchain, hdisj⟩ := h
  have hcheck : img.blocks.any (rangeOverlapsNew address ([] : List Nat).length) = false := by
    rw [List.any_eq_false]
    intro b hb
    rw [rangeOverlapsNew]
    simp only [Bool.not_eq_true, List.any_eq_false]
    intro i hi
    by_contra hcon
    simp only [Bool.not_eq_true, Bool.not_eq_false, Bool.and_eq_true,
      decide_eq_true_eq, List.length_nil] at hcon
    omega
  unfold Image.add_data
  rw [if_neg (by rw [hcheck]; simp)]
  refine ⟨_, rfl, ?_⟩
  rw [sortBlocks_append_singleton _ _ hsorted]
  obtain ⟨p, s, heq, hps, hp, hs⟩ :=
    insertBlock_decompose ⟨address, []⟩ img.blocks hsorted
  rw [heq]
  intro b hb
  exact mergeAll_insert_middle p s address (hps ▸ hchain)
    (fun y hy => hs y hy) b (hps ▸ hb)

/-- C10 witness: adding empty data at address 2, strictly inside the block
`[0, 4)`, returns normally and keeps the block. -/
theorem claim_C10_witness :
    validBlocks (Image.mk [⟨0, [1, 2, 3, 4]⟩]).blocks ∧
    ∃ img', Image.add_data ⟨[⟨0, [1, 2, 3, 4]⟩]⟩ 2 [] = some img' ∧
      ∀ b ∈ (Image.mk [⟨0, [1, 2, 3, 4]⟩]).blocks, b ∈ img'.blocks :=
  ⟨by simp [validBlocks, blocksDisjoint, blockEnd],
   claim_C10_empty_data ⟨[⟨0, [1, 2, 3, 4]⟩]⟩ 2
     (by simp [validBlocks, blocksDisjoint, blockEnd])⟩

theorem list_max_le (l : List Nat) (m : Nat) (h : list_max l = some m) :
    ∀ x ∈ l, x ≤ m := by
  induction l generalizing m with
  | nil => cases h
  | cons y l ih =>
    rw [list_max] at h
    rcases hm : list_max l with _ | m' <;> rw [hm] at h <;>
      rcases Option.some.injEq _ _ ▸ h with rfl
    · intro x hx
      have hl : l = [] := by
        cases l with
        | nil => rfl
        | cons z l2 =>
          rw [list_max] at hm
          rcases hm2 : list_max l2 with _ | w <;> rw [hm2] at hm <;> simp at hm
      subst hl
      rcases List.mem_cons.mp hx with rfl | hx
      · exact Nat.le_refl _
      · cases hx
    · intro x hx
      rcases List.mem_cons.mp hx with rfl | hx
      · exact Nat.le_max_left _ _
      · exact Nat.le_trans (ih m' hm x hx) (Nat.le_max_right _ _)

theorem chunksFuel_spec (fuel : Nat) (l : List Nat) (h : l.length ≤ fuel) :
    (chunksFuel fuel l).flatten = l ∧ ∀ c ∈ chunksFuel fuel l, c.length ≤ 32 := by
  induction fuel generalizing l with
  | zero =>
    rcases l with _ | ⟨x, xs⟩
    · exact ⟨rfl, by simp [chunksFuel]⟩
    · simp at h
  | succ fuel ih =>
    rcases l with _ | ⟨x, xs⟩
    · exact ⟨rfl, by simp [chunksFuel]⟩
    · have hlen : (xs.drop 31).length ≤ fuel := by
        simp at h ⊢
        omega
      obtain ⟨hflat, hsize⟩ := ih (xs.drop 31) hlen
      constructor
      · rw [chunksFuel]
        simp only [List.flatten_cons, hflat]
        rw [List.cons_append, List.take_append_drop]
      · intro c hc
        rw [chunksFuel] at hc
        rcases List.mem_cons.mp hc with rfl | hc
        · simp
        · exact hsize c hc

theorem records_list_map (f : Block → Option Record) (g : Block → Record)
    (cs : List Block) (h : ∀ b ∈ cs, f b = some (g b)) :
    records_list f cs = some (cs.map g) := by
  induction cs with
  | nil => rfl
  | cons c cs ih =>
    rw [records_list, h c (List.mem_cons_self c cs),
      ih (fun b hb => h b (List.mem_cons_of_mem c hb))]
    rfl

/-- C9: for every image that has at least one chunk (so the maximum chunk
address `m` exists), `image_records` under `SmallestRequired` yields one data
record per 32-byte-maximum chunk, all of the single width chosen from `m`:
S1 when `m ≤ 0xFFFF`, S2 when `m ≤ 0xFFFFFF`, S3 otherwise — never a
per-chunk width; and every block's chunks are at most 32 bytes and
concatenate back to the block's data. -/
theorem claim_C9_smallest_required (i : Image) (m : Nat)
    (hmax : list_max ((image_chunks i).map (·.address)) = some m) :
    image_records i .smallestRequired
        = some ((image_chunks i).map (smallest_record m)) ∧
    ∀ b ∈ i.blocks, (∀ c ∈ chunks32 b.data, c.length ≤ 32) ∧
      (chunks32 b.data).flatten = b.data := by
  constructor
  · unfold image_records
    rw [hmax]
    apply records_list_map
    intro b hb
    have hle : b.address ≤ m :=
      list_max_le _ m hmax b.address (List.mem_map.mpr ⟨b, hb, rfl⟩)
    simp only [chunk_record, smallest_record]
    split_ifs <;> first | rfl | omega
  · intro b hb
    obtain ⟨hflat, hsize⟩ := chunksFuel_spec b.data.length b.data (Nat.le_refl _)
    exact ⟨hsize, hflat⟩

/-- C9 witness: the theorem applied to a two-block image whose maximum chunk
address `0x123456` selects 24-bit records for every chunk (the repo's own
`smallest_required_24` test). -/
theorem claim_C9_witness :
    image_records ⟨[⟨0x1234, [17, 34, 51, 68]⟩, ⟨0x123456, [17, 34, 51, 68]⟩]⟩
        .smallestRequired
      = some ((image_chunks ⟨[⟨0x1234, [17, 34, 51, 68]⟩, ⟨0x123456, [17, 34, 51, 68]⟩]⟩).map
          (smallest_record 0x123456)) :=
  (claim_C9_smallest_required _ 0x123456 (by decide)).1
